import Mathlib

/-!
Verification development for the precise-DPA construction and the
bisimulation partition-refinement minimizers.

The Rust sources embedded here are
`src/crates/automata-learning/src/passive/precise.rs` and
`src/crates/automata/src/minimization/partition_refinement.rs`.
Machine integers become `Nat`, fallible operations (`expect`, indexing
that may panic) become `Option`, and sets (`BTreeSet`) become `Finset Nat`.
-/

namespace Frieda

/-- Symbols of the alphabet are numbered `0, 1, 2, ...` (the test alphabet
`{a, b, c}` becomes `{0, 1, 2}`). -/
abbrev Sym := Nat

/-- Monadic map over `Option`, mirroring a Rust iterator of fallible lookups
being collected into a `Vec` (any panic aborts the whole computation). -/
def optionMapM {α β : Type} (f : α → Option β) : List α → Option (List β)
  | [] => some []
  | x :: xs => do
      let y ← f x
      let ys ← optionMapM f xs
      pure (y :: ys)

/-- Index of the first element satisfying `p`, mirroring
`Iterator::position`. -/
def position {α : Type} (p : α → Bool) : List α → Option Nat
  | [] => none
  | x :: xs => if p x then some 0 else (position p xs).map (· + 1)

/-- Embedding of `DFA<A>` as consumed by the precise-DPA construction:
`succ` is `successor_index`, `accept` is `state_color` (a Boolean state
color), `init` is `initial()`, and `size` records how many states the
automaton has (its states are `0, ..., size - 1`). -/
structure DFAE where
  size : Nat
  succ : Nat → Sym → Option Nat
  accept : Nat → Option Bool
  init : Nat

/-- Embedding of the leading `RightCongruence<A>`: `succ` is
`successor_index`, `init` is `initial()`, `symbols` is the alphabet
universe and `size` the number of classes. -/
structure CongE where
  size : Nat
  succ : Nat → Sym → Option Nat
  init : Nat
  symbols : List Sym

/-- Embedding of `PState<N>`: the class in the leading congruence together
with, per Mostowski level, the class of the currently active progress DFA
and the current state inside it.  The Rust arrays `[StateIndex; N]` become
lists of length `N`.  (`class` is a Lean keyword, hence the field `cls`.) -/
structure PState where
  cls : Nat
  progress_classes : List Nat
  progress_states : List Nat
deriving DecidableEq, Repr

/-- Embedding of `PState::from_iters`: fill two zero-initialised arrays of
width `N` from the given iterators.  Writing past index `N - 1` panics in
Rust (`c[i] = o` with `i >= N`), which is `none` here; shorter iterators
leave the padding zeros in place. -/
def padTo (N : Nat) (l : List Nat) : Option (List Nat) :=
  if l.length ≤ N then some (l ++ List.replicate (N - l.length) 0) else none

/-- Embedding of `PState::from_iters`. -/
def PState.from_iters (N : Nat) (leading : Nat) (pc pq : List Nat) : Option PState := do
  let c ← padTo N pc
  let q ← padTo N pq
  pure ⟨leading, c, q⟩

/-- Embedding of `PreciseDPA<A, N>`: the explored states (only the initial
one is stored at construction time), the leading congruence and, for every
class, the array of `N` progress DFAs (`dfas[class][level]`). -/
structure PreciseDPA where
  N : Nat
  states : List PState
  cong : CongE
  dfas : List (List DFAE)

/-- Embedding of `PreciseDPA::new`.  Note that the Rust code builds the
initial progress states as `(0..dfas.len()).map(|i| dfas[i][e].initial())`:
it ranges over the *classes* and indexes the family of class `i` at *level*
`e`; out-of-bounds indexing panics (`none`). -/
def PreciseDPA.new (N : Nat) (cong : CongE) (dfas : List (List DFAE)) : Option PreciseDPA := do
  let e := cong.init
  let pq ← optionMapM (fun i => do
      let fam ← dfas.get? i
      let dfa ← fam.get? e
      pure dfa.init) (List.range dfas.length)
  let initial ← PState.from_iters N e (List.replicate N e) pq
  pure ⟨N, [initial], cong, dfas⟩

/-- Embedding of `PreciseDPA::take_precise_transition`: compute the leading
successor `d`, evaluate every level's active progress DFA on the symbol,
find the least accepting level (the transition color) and build the
successor composite state, carrying levels below the least accepting one
and resetting the rest to class `d` and the initial state of `dfas[d][i]`.
Every `expect`/indexing panic of the source is `none` here. -/
def PreciseDPA.take_precise_transition (dpa : PreciseDPA) (q : PState) (a : Sym) :
    Option (Nat × PState) := do
  let d ← dpa.cong.succ q.cls a
  let progress ← optionMapM (fun x => do
      let fam ← dpa.dfas.get? x.2.1
      let dfa ← fam.get? x.1
      let p ← dfa.succ x.2.2 a
      let b ← dfa.accept p
      pure (x.2.1, p, b)) (q.progress_classes.zip q.progress_states).enum
  let least_accepting ← position (fun t => t.2.2) progress
  let pcs := progress.enum.map (fun x => if x.1 < least_accepting then x.2.1 else d)
  let pss ← optionMapM (fun x =>
      if x.1 < least_accepting then pure x.2.2.1
      else do
        let fam ← dpa.dfas.get? d
        let dfa ← fam.get? x.1
        pure dfa.init) progress.enum
  let reached_pstate ← PState.from_iters dpa.N d pcs pss
  pure (least_accepting, reached_pstate)

/-- Embedding of `PreciseDPA::contains_state_index`: no membership check is
performed, every `PState` value is accepted. -/
def PreciseDPA.contains_state_index (_dpa : PreciseDPA) (_q : PState) : Bool :=
  true

/-- Embedding of `TransitionSystem::state_color` for `PreciseDPA`: returns
`None` only when `contains_state_index` is false (which never happens). -/
def PreciseDPA.state_color (dpa : PreciseDPA) (q : PState) : Option Unit :=
  if dpa.contains_state_index q then some () else none

/-- Embedding of `TransitionSystem::edges_from` for `PreciseDPA`: returns
`None` only when `contains_state_index` is false; otherwise the (lazy)
iterator of one transition per alphabet symbol, each of which may itself
still fail when forced. -/
def PreciseDPA.edges_from (dpa : PreciseDPA) (q : PState) :
    Option (List (Option (Nat × PState))) :=
  if dpa.contains_state_index q then
    some (dpa.cong.symbols.map (fun a => dpa.take_precise_transition q a))
  else none

/-- The progress DFA active at level `i` of composite state `q`
(`self.dfas[q.progress_classes[i]][i]`), used to state C1. -/
def levelDFA (dpa : PreciseDPA) (q : PState) (i : Nat) : Option DFAE :=
  (dpa.dfas.get? (q.progress_classes.getD i 0)).bind (fun fam => fam.get? i)

/-- Successor of the level-`i` progress state on symbol `a`. -/
def levelSucc (dpa : PreciseDPA) (q : PState) (a : Sym) (i : Nat) : Option Nat :=
  (levelDFA dpa q i).bind (fun dfa => dfa.succ (q.progress_states.getD i 0) a)

/-- Accepting flag of the level-`i` successor state on symbol `a`. -/
def levelAcc (dpa : PreciseDPA) (q : PState) (a : Sym) (i : Nat) : Option Bool :=
  (levelDFA dpa q i).bind (fun dfa =>
    (dfa.succ (q.progress_states.getD i 0) a).bind (fun p => dfa.accept p))

/-- Initial state of the level-`i` DFA of class `d`
(`self.dfas[d][i].initial()`), used to state C1. -/
def resetInit (dpa : PreciseDPA) (d : Nat) (i : Nat) : Option Nat :=
  ((dpa.dfas.get? d).bind (fun fam => fam.get? i)).map DFAE.init

/-- The color sequence produced by iterating `take_precise_transition`
along a finite word. -/
def engineColors (dpa : PreciseDPA) (q : PState) : List Sym → Option (List Nat)
  | [] => some []
  | a :: w =>
      (dpa.take_precise_transition q a).bind (fun r =>
        (engineColors dpa r.2 w).map (fun cs => r.1 :: cs))

/-- Run a DFA from state `s` along a finite word. -/
def runDFAFrom (dfa : DFAE) (s : Nat) : List Sym → Option Nat
  | [] => some s
  | a :: w => (dfa.succ s a).bind (fun t => runDFAFrom dfa t w)

/-- Direct (non-incremental) evaluation state, following the spec's words:
the current leading class together with, per level, the class whose family
became active at the last reset and the word segment read since that
reset. -/
structure DirectState where
  cls : Nat
  lineage : List (Nat × List Sym)

/-- Direct (non-incremental) definition of one step, following the spec's
words (§4.2): at each level re-run the active DFA from its initial state
over the whole segment read since the last reset, take the least accepting
level as color, extend the surviving segments and reset the rest. -/
def directStep (dpa : PreciseDPA) (st : DirectState) (a : Sym) :
    Option (Nat × DirectState) := do
  let d ← dpa.cong.succ st.cls a
  let evals ← optionMapM (fun x => do
      let fam ← dpa.dfas.get? x.2.1
      let dfa ← fam.get? x.1
      let p ← runDFAFrom dfa dfa.init (x.2.2 ++ [a])
      let b ← dfa.accept p
      pure (x.2.1, x.2.2 ++ [a], b)) st.lineage.enum
  let k ← position (fun t => t.2.2) evals
  let lineage := evals.enum.map (fun x =>
      if x.1 < k then (x.2.1, x.2.2.1) else (d, ([] : List Sym)))
  pure (k, ⟨d, lineage⟩)

/-- The direct color sequence along a finite word. -/
def directColors (dpa : PreciseDPA) (st : DirectState) : List Sym → Option (List Nat)
  | [] => some []
  | a :: w =>
      (directStep dpa st a).bind (fun r =>
        (directColors dpa r.2 w).map (fun cs => r.1 :: cs))

/-- Direct initial evaluation state: every level tracks the initial leading
class from an empty segment (spec §3: the initial composite state is
`(leading.initial, [leading.initial] x N, [dfa[leading.initial][i].initial] x N)`). -/
def directInit (dpa : PreciseDPA) : DirectState :=
  ⟨dpa.cong.init, List.replicate dpa.N (dpa.cong.init, ([] : List Sym))⟩

/-- The initial composite state prescribed by the spec (§3): class slot `i`
holds the initial class, progress slot `i` holds the initial state of the
level-`i` DFA of the initial class's family. -/
def specInitialPState (dpa : PreciseDPA) : Option PState := do
  let e := dpa.cong.init
  let pq ← optionMapM (fun i => resetInit dpa e i) (List.range dpa.N)
  pure ⟨e, List.replicate dpa.N e, pq⟩

/-- Modelled from the spec: reachable-state exploration (the `ts::Reachable`
iterator behind `reachable_state_indices` is not under `src/`).  Spec §4.2:
a standard fixpoint search from the initial state using composite-state
equality as the visited-set key; the fuel counts worklist pops and the
search fails (`none`) only when the fuel runs out before the worklist
empties. -/
def exploreAux (dpa : PreciseDPA) : Nat → List PState → List PState → Option (List PState)
  | _, [], vis => some vis
  | 0, _ :: _, _ => none
  | fuel + 1, q :: work, vis =>
      let succs := dpa.cong.symbols.filterMap
        (fun a => (dpa.take_precise_transition q a).map Prod.snd)
      let next := succs.foldl
        (fun vw p => if vw.1.contains p then vw else (vw.1 ++ [p], vw.2 ++ [p]))
        (vis, work)
      exploreAux dpa fuel next.2 next.1

/-- Modelled from the spec: the set of composite states reachable from the
initial state. -/
def PreciseDPA.reachableStates (dpa : PreciseDPA) (fuel : Nat) : Option (List PState) :=
  (dpa.states.head?).bind (fun q0 => exploreAux dpa fuel [q0] [q0])

/-- Embedding of `padding_universal_dfa`: a single always-accepting state
looping on every alphabet symbol. -/
def padding_universal_dfa (syms : List Sym) : DFAE where
  size := 1
  succ := fun s a => if s = 0 ∧ a ∈ syms then some 0 else none
  accept := fun s => if s = 0 then some true else none
  init := 0

/-- Modelled from the spec: the input `FWPM` (leading congruence plus, per
class of the congruence and in class order, the list of progress DFAs
produced by `decompose_dfa`); `fwpm.rs` is not under `src/`. -/
structure FWPME where
  leading : CongE
  families : List (List DFAE)

/-- Modelled from the spec: `FWPM::complexity`, the number of progress DFAs
per class (the maximal family width; narrower families are padded). -/
def FWPME.complexity (f : FWPME) : Nat :=
  f.families.foldr (fun fam m => max fam.length m) 0

/-- Embedding of `impl From<FWPM> for PreciseDPA` for a fixed width `N`:
assert that no family is wider than `N` (`assert!(dfas.len() <= N)`), pad
narrower families with the universal DFA, then call `PreciseDPA::new`. -/
def fromFWPM (N : Nat) (f : FWPME) : Option PreciseDPA := do
  let padding := padding_universal_dfa f.leading.symbols
  let prc_dfas ← optionMapM (fun fam =>
      if fam.length ≤ N then
        some (fam ++ List.replicate (N - fam.length) padding)
      else none) f.families
  PreciseDPA.new N f.leading prc_dfas

/-- Embedding of `build_precise_dpa_for`: dispatch on the complexity with
the hard-coded arms `1..=8`; `0` and anything above `8` panic (`none`).
The subsequent collect/minimize pipeline is aggregation of the lazily
defined automaton and is elided; the value returned is the constructed
`PreciseDPA` itself. -/
def build_precise_dpa_for (f : FWPME) : Option PreciseDPA :=
  match f.complexity with
  | 0 => none
  | 1 => fromFWPM 1 f
  | 2 => fromFWPM 2 f
  | 3 => fromFWPM 3 f
  | 4 => fromFWPM 4 f
  | 5 => fromFWPM 5 f
  | 6 => fromFWPM 6 f
  | 7 => fromFWPM 7 f
  | 8 => fromFWPM 8 f
  | _ => none

/-- Build a `DFAE` from an explicit transition table, state-color table and
initial state, mirroring `DTS::builder().with_transitions(...)
.with_state_colors(...).into_dfa(init)`. -/
def mkDFA (size : Nat) (tr : List (Nat × Sym × Nat)) (colors : List Bool) (init : Nat) :
    DFAE where
  size := size
  succ := fun s a => (tr.find? (fun t => t.1 == s && t.2.1 == a)).map (fun t => t.2.2)
  accept := fun s => colors.get? s
  init := init

/-- The leading congruence of the `precise_dpa` test: two classes over the
alphabet `{a, b, c}`, `a` swaps the classes, `b` and `c` are self loops. -/
def testCong : CongE where
  size := 2
  succ := fun q a =>
    (([(0, 0, 1), (0, 1, 0), (0, 2, 0), (1, 0, 0), (1, 1, 1), (1, 2, 1)]
        : List (Nat × Sym × Nat)).find? (fun t => t.1 == q && t.2.1 == a)).map
      (fun t => t.2.2)
  init := 0
  symbols := [0, 1, 2]

/-- The DFA `de0` of the `precise_dpa` test. -/
def de0 : DFAE :=
  mkDFA 2 [(0, 0, 0), (0, 1, 1), (0, 2, 0), (1, 0, 1), (1, 1, 1), (1, 2, 1)]
    [false, true] 0

/-- The DFA `da0` of the `precise_dpa` test. -/
def da0 : DFAE :=
  mkDFA 2 [(0, 0, 0), (0, 1, 0), (0, 2, 1), (1, 0, 1), (1, 1, 1), (1, 2, 1)]
    [false, true] 0

/-- The DFA `de1` of the `precise_dpa` test. -/
def de1 : DFAE :=
  mkDFA 3 [(0, 0, 0), (0, 1, 2), (0, 2, 1), (1, 0, 0), (1, 1, 2), (1, 2, 2),
    (2, 0, 2), (2, 1, 2), (2, 2, 2)] [false, false, true] 0

/-- The DFA `full` of the `precise_dpa` test. -/
def fullDFA : DFAE :=
  mkDFA 2 [(0, 0, 1), (0, 1, 1), (0, 2, 1), (1, 0, 1), (1, 1, 1), (1, 2, 1)]
    [false, true] 0

/-- The precise DPA of the `precise_dpa` test:
`PreciseDPA::new(cong, vec![[de0, de1, full], [da0, full, full]])`. -/
def testDpa : Option PreciseDPA :=
  PreciseDPA.new 3 testCong [[de0, de1, fullDFA], [da0, fullDFA, fullDFA]]

/-- One-class leading congruence over the single-symbol alphabet `{0}`,
used by the C2 divergence input. -/
def c2cong : CongE where
  size := 1
  succ := fun q a => if q = 0 ∧ a = 0 then some 0 else none
  init := 0
  symbols := [0]

/-- Level-0 DFA of the C2 divergence input: one state, complete, never
accepting. -/
def c2d0 : DFAE where
  size := 1
  succ := fun s a => if s = 0 ∧ a = 0 then some 0 else none
  accept := fun s => if s = 0 then some false else none
  init := 0

/-- Level-1 DFA of the C2 divergence input: two states fixed by the single
symbol, state `1` accepting, initial state `1`. -/
def c2d1 : DFAE where
  size := 2
  succ := fun s a => if s < 2 ∧ a = 0 then some s else none
  accept := fun s => if s < 2 then some (s = 1) else none
  init := 1

/-- Level-2 DFA of the C2 divergence input: one state, complete, always
accepting. -/
def c2dtop : DFAE where
  size := 1
  succ := fun s a => if s = 0 ∧ a = 0 then some 0 else none
  accept := fun s => if s = 0 then some true else none
  init := 0

/-- The C2/C4-style divergence automaton with one class and width 3. -/
def c2dpa : Option PreciseDPA :=
  PreciseDPA.new 3 c2cong [[c2d0, c2d1, c2dtop]]

/-- Two-class leading congruence over `{0}` (both classes step to class 0),
used by the C4 failing input. -/
def c4cong : CongE where
  size := 2
  succ := fun q a => if q < 2 ∧ a = 0 then some 0 else none
  init := 0
  symbols := [0]

/-- Class-0 level-0 DFA of the C4 failing input: one state, complete, never
accepting. -/
def c4e0 : DFAE where
  size := 1
  succ := fun s a => if s = 0 ∧ a = 0 then some 0 else none
  accept := fun s => if s = 0 then some false else none
  init := 0

/-- Class-0 level-1 DFA of the C4 failing input: one state, complete,
accepting on every state (it is the highest-indexed DFA of its family). -/
def c4e1 : DFAE where
  size := 1
  succ := fun s a => if s = 0 ∧ a = 0 then some 0 else none
  accept := fun s => if s = 0 then some true else none
  init := 0

/-- Class-1 level-0 DFA of the C4 failing input: three states fixed by the
single symbol, never accepting, initial state `2`. -/
def c4a0 : DFAE where
  size := 3
  succ := fun s a => if s < 3 ∧ a = 0 then some s else none
  accept := fun s => if s < 3 then some false else none
  init := 2

/-- Class-1 level-1 DFA of the C4 failing input: one state, complete,
accepting on every state. -/
def c4a1 : DFAE where
  size := 1
  succ := fun s a => if s = 0 ∧ a = 0 then some 0 else none
  accept := fun s => if s = 0 then some true else none
  init := 0

/-- The C4 failing input: every family is complete with an always-accepting
top DFA, yet the initial composite state built by `PreciseDPA::new` holds
progress state `2` for the one-state DFA `c4e1`. -/
def c4dpa : Option PreciseDPA :=
  PreciseDPA.new 2 c4cong [[c4e0, c4e1], [c4a0, c4a1]]

/-- Completeness of a `DFAE` over the given alphabet: every state has a
successor (inside the state set) on every symbol (spec §4.1). -/
abbrev DFAE.Complete (dfa : DFAE) (syms : List Sym) : Prop :=
  ∀ s < dfa.size, ∀ a ∈ syms, ∃ t, t < dfa.size ∧ dfa.succ s a = some t

/-- Every state of the `DFAE` carries a Boolean color. -/
abbrev DFAE.Colored (dfa : DFAE) : Prop :=
  ∀ s < dfa.size, (dfa.accept s).isSome

/-- The `DFAE` accepts on every state (required of the highest-indexed DFA
of every family, spec §3). -/
abbrev DFAE.AcceptsAll (dfa : DFAE) : Prop :=
  ∀ s < dfa.size, dfa.accept s = some true

/-- Well-formedness of a progress-DFA family of width `N` (spec §3/§4.1):
exactly `N` complete, colored DFAs with in-range initial states, the last
of which accepts on every state. -/
abbrev FamilyWF (syms : List Sym) (N : Nat) (fam : List DFAE) : Prop :=
  fam.length = N ∧
  (∀ dfa ∈ fam, dfa.Complete syms ∧ dfa.Colored ∧ dfa.init < dfa.size) ∧
  ∀ dfa ∈ fam.getLast?.toList, dfa.AcceptsAll

/-- Well-formedness of the leading congruence (spec §4.1): complete,
deterministic, pointed. -/
abbrev CongE.Complete (c : CongE) : Prop :=
  c.init < c.size ∧ ∀ q < c.size, ∀ a ∈ c.symbols, ∃ d, d < c.size ∧ c.succ q a = some d

/-- Well-formedness of a whole precise DPA input (spec §4.1/§7): complete
leading congruence, one well-formed family per class. -/
abbrev PreciseDPA.WellFormed (dpa : PreciseDPA) : Prop :=
  0 < dpa.N ∧ dpa.cong.Complete ∧ dpa.dfas.length = dpa.cong.size ∧
    ∀ fam ∈ dpa.dfas, FamilyWF dpa.cong.symbols dpa.N fam

/-- Validity of a composite state with respect to a precise DPA: the
leading class and every per-level progress class are classes of the
congruence, the two arrays have width `N`, and every per-level progress
state is a state of the progress DFA active at that level. -/
def ValidPState (dpa : PreciseDPA) (q : PState) : Prop :=
  q.cls < dpa.cong.size ∧
  q.progress_classes.length = dpa.N ∧
  q.progress_states.length = dpa.N ∧
  (∀ i, i < dpa.N → q.progress_classes.getD i 0 < dpa.cong.size) ∧
  (∀ i, i < dpa.N → ∀ dfa, levelDFA dpa q i = some dfa →
    q.progress_states.getD i 0 < dfa.size)

/-- The progress DFA active at level `i` of a direct evaluation state
(`dfas[lineage[i].class][i]`). -/
def directLevelDFA (dpa : PreciseDPA) (st : DirectState) (i : Nat) :
    Option DFAE :=
  (dpa.dfas.get? (st.lineage.getD i (0, [])).1).bind (fun fam => fam.get? i)

/-- Re-running the level-`i` DFA from its initial state over the stored
segment extended by `a`, as `directStep` does. -/
def directLevelRun (dpa : PreciseDPA) (st : DirectState) (a : Sym) (i : Nat) :
    Option Nat :=
  (directLevelDFA dpa st i).bind (fun dfa =>
    runDFAFrom dfa dfa.init ((st.lineage.getD i (0, [])).2 ++ [a]))

/-- The accepting flag of the re-run level-`i` DFA. -/
def directLevelAcc (dpa : PreciseDPA) (st : DirectState) (a : Sym) (i : Nat) :
    Option Bool :=
  (directLevelDFA dpa st i).bind (fun dfa =>
    (runDFAFrom dfa dfa.init ((st.lineage.getD i (0, [])).2 ++ [a])).bind
      (fun p => dfa.accept p))

/-- Alignment of an engine composite state with a direct evaluation state:
same leading class, full-width lineage, the same per-level progress class,
and a stored segment that re-runs (from the active DFA's initial state) to
exactly the engine's current per-level progress state. -/
def Align (dpa : PreciseDPA) (q : PState) (st : DirectState) : Prop :=
  st.cls = q.cls ∧
  st.lineage.length = dpa.N ∧
  (∀ i, i < dpa.N →
    (st.lineage.getD i (0, [])).1 = q.progress_classes.getD i 0) ∧
  (∀ i, i < dpa.N → ∀ dfa, levelDFA dpa q i = some dfa →
    runDFAFrom dfa dfa.init (st.lineage.getD i (0, [])).2 =
      some (q.progress_states.getD i 0))

/-- Three-class leading congruence over `{0}` cycling through its classes,
used by the C8 failing input. -/
def c8cong : CongE where
  size := 3
  succ := fun q a => if q < 3 ∧ a = 0 then some ((q + 1) % 3) else none
  init := 0
  symbols := [0]

/-- The C8 failing input: three classes, each with a single-DFA family, so
the complexity is `1`. -/
def c8fwpm : FWPME :=
  ⟨c8cong, [[padding_universal_dfa [0]], [padding_universal_dfa [0]],
    [padding_universal_dfa [0]]]⟩

/-- One-class leading congruence over `{0}` for the C5 failing input. -/
def c5cong : CongE where
  size := 1
  succ := fun q a => if q = 0 ∧ a = 0 then some 0 else none
  init := 0
  symbols := [0]

/-- Level-0 DFA of the C5 failing input (one state, initial state `0`). -/
def c5a : DFAE where
  size := 1
  succ := fun s a => if s = 0 ∧ a = 0 then some 0 else none
  accept := fun s => if s = 0 then some false else none
  init := 0

/-- Level-1 DFA of the C5 failing input: its initial state is `1`, which
the initial composite state built by `PreciseDPA::new` fails to record. -/
def c5b : DFAE where
  size := 2
  succ := fun s a => if s < 2 ∧ a = 0 then some s else none
  accept := fun s => if s < 2 then some (s = 1) else none
  init := 1

/-- The C5 failing input. -/
def c5dpa : Option PreciseDPA :=
  PreciseDPA.new 2 c5cong [[c5a, c5b]]

/-!
Partition refinement
(source: `src/crates/automata/src/minimization/partition_refinement.rs`).
-/

/-- Embedding of a deterministic edge-colored (Mealy-style) automaton:
states `0, ..., n - 1`, symbols `0, ..., k - 1`, and `edge q a` mirroring
`mm.edge(q, sym)` with `.target()` and `.color()` as the two components. -/
structure MealyE where
  n : Nat
  k : Nat
  edge : Nat → Nat → Option (Nat × Nat)

/-- Every edge targets an existing state (structurally true of the Rust
transition systems feeding the refiner). -/
abbrev MealyE.Closed (M : MealyE) : Prop :=
  ∀ q < M.n, ∀ a < M.k, ∀ tc ∈ M.edge q a, tc.1 < M.n

/-- Whether state `q` has an `a`-edge of color `c` into the backing set
`S` (the test `set.contains(&t.target())` under the color grouping). -/
def mealyHits (M : MealyE) (S : Finset Nat) (a c q : Nat) : Bool :=
  match M.edge q a with
  | some tc => decide (tc.1 ∈ S) && decide (tc.2 = c)
  | none => false

/-- The splitter group for backing set `S`, symbol `a` and color `c`: the
entry of the `splitter` map at key `c`. -/
def mealyGrp (M : MealyE) (S : Finset Nat) (a c : Nat) : Finset Nat :=
  (Finset.range M.n).filter (fun q => mealyHits M S a c q = true)

/-- The colors with which some state enters `S` on `a` — the key set of
the `splitter` map, which is iterated in ascending key order. -/
def mealyColorsInto (M : MealyE) (S : Finset Nat) (a : Nat) : Finset Nat :=
  ((Finset.range M.n).filter
      (fun q => ((M.edge q a).map (fun tc => decide (tc.1 ∈ S))).getD false = true)).image
    (fun q => ((M.edge q a).map Prod.snd).getD 0)

/-- The queue update when block `Y` is split by group `X`: if `Y` occurs
in the queue (`queue.iter().position(|o| o == y)`) it is removed and both
parts are appended, otherwise the smaller part is appended (classic
smaller-half heuristic). -/
def splitQueue (X Y : Finset Nat) (Q : List (Finset Nat)) : List (Finset Nat) :=
  match Q.findIdx? (fun o => o == Y) with
  | some pos => Q.eraseIdx pos ++ [X ∩ Y, Y \ X]
  | none => Q ++ [if (X ∩ Y).card ≤ (Y \ X).card then X ∩ Y else Y \ X]

/-- One full splitting pass with group `X` over the current partition: a
block is kept when `X` misses it or swallows it (`x.intersection(y).next()
.is_none() || y.difference(&x).next().is_none()`), and otherwise replaced
by intersection and difference, the queue being updated by `splitQueue`. -/
def applySplitter (X : Finset Nat) :
    List (Finset Nat) → List (Finset Nat) → List (Finset Nat) × List (Finset Nat)
  | Q, [] => (Q, [])
  | Q, Y :: rest =>
      if X ∩ Y = ∅ ∨ Y \ X = ∅ then
        let r := applySplitter X Q rest
        (r.1, Y :: r.2)
      else
        let r := applySplitter X (splitQueue X Y Q) rest
        (r.1, (X ∩ Y) :: (Y \ X) :: r.2)

/-- Processing one symbol for popped set `S` in the Mealy variant: build
the splitter groups once from the edges into `S` and split with each group
in ascending color order. -/
def mealyProcessSymbol (M : MealyE) (S : Finset Nat) (a : Nat)
    (QP : List (Finset Nat) × List (Finset Nat)) :
    List (Finset Nat) × List (Finset Nat) :=
  ((mealyColorsInto M S a).sort (· ≤ ·)).foldl
    (fun QP c => applySplitter (mealyGrp M S a c) QP.1 QP.2) QP

/-- Processing a popped set `S` in the Mealy variant: one pass per
alphabet symbol. -/
def mealyProcessSet (M : MealyE) (S : Finset Nat)
    (QP : List (Finset Nat) × List (Finset Nat)) :
    List (Finset Nat) × List (Finset Nat) :=
  (List.range M.k).foldl (fun QP a => mealyProcessSymbol M S a QP) QP

/-- The shared worklist loop of both refiners, parameterized over the
worklist-selection function `ch` (the spec demands that the processing
order not affect the result; `Vec::pop` of the source is `popLast`).  The
fuel bounds the number of pops; each iteration strictly decreases
`2 * (n + 1) - 2 * |partition| + |queue|`, so `2 * n + 2` pops always
suffice to empty the queue. -/
def refineLoop
    (process : Finset Nat → List (Finset Nat) × List (Finset Nat) →
      List (Finset Nat) × List (Finset Nat))
    (ch : List (Finset Nat) → List (Finset Nat) → Nat) :
    Nat → List (Finset Nat) × List (Finset Nat) →
      List (Finset Nat) × List (Finset Nat)
  | 0, QP => QP
  | fuel + 1, (Q, P) =>
      match Q with
      | [] => (Q, P)
      | _ :: _ =>
          let i := ch Q P % Q.length
          refineLoop process ch fuel (process (Q.getD i ∅) (Q.eraseIdx i, P))

/-- The worklist selection of the source: `Vec::pop` removes the last
element. -/
def popLast : List (Finset Nat) → List (Finset Nat) → Nat :=
  fun Q _ => Q.length - 1

/-- The Mealy refiner run with an arbitrary worklist selection: start from
the single block of all states (also the initial worklist) and split until
the worklist is empty. -/
def mealyRefine (M : MealyE)
    (ch : List (Finset Nat) → List (Finset Nat) → Nat) : List (Finset Nat) :=
  (refineLoop (mealyProcessSet M) ch (2 * M.n + 2)
    ([Finset.range M.n], [Finset.range M.n])).2

/-- Embedding of `mealy_greatest_bisimulation` (the source pops the last
worklist element). -/
def mealy_greatest_bisimulation (M : MealyE) : List (Finset Nat) :=
  mealyRefine M popLast

/-- Embedding of a deterministic state-colored (Moore-style) automaton.
The Moore refiner reads only edge targets and state colors. -/
structure MooreE where
  n : Nat
  k : Nat
  edge : Nat → Nat → Option Nat
  col : Nat → Nat

/-- Every edge targets an existing state. -/
abbrev MooreE.Closed (M : MooreE) : Prop :=
  ∀ q < M.n, ∀ a < M.k, ∀ t ∈ M.edge q a, t < M.n

/-- The Moore splitter set for backing set `S` and symbol `a`
(`mm.edge(*q, sym).map(|t| a.contains(&t.target())).unwrap_or(false)`). -/
def mooreGrp (M : MooreE) (S : Finset Nat) (a : Nat) : Finset Nat :=
  (Finset.range M.n).filter
    (fun q => ((M.edge q a).map (fun t => decide (t ∈ S))).getD false = true)

/-- The initial Moore partition, pre-split by state color: one block per
occurring color, in ascending color order (the values of the `presplit`
map). -/
def moorePresplit (M : MooreE) : List (Finset Nat) :=
  (((Finset.range M.n).image M.col).sort (· ≤ ·)).map
    (fun c => (Finset.range M.n).filter (fun q => M.col q = c))

/-- Processing a popped set `S` in the Moore variant: one splitter set per
alphabet symbol. -/
def mooreProcessSet (M : MooreE) (S : Finset Nat)
    (QP : List (Finset Nat) × List (Finset Nat)) :
    List (Finset Nat) × List (Finset Nat) :=
  (List.range M.k).foldl
    (fun QP a => applySplitter (mooreGrp M S a) QP.1 QP.2) QP

/-- The Moore refiner run with an arbitrary worklist selection. -/
def mooreRefine (M : MooreE)
    (ch : List (Finset Nat) → List (Finset Nat) → Nat) : List (Finset Nat) :=
  (refineLoop (mooreProcessSet M) ch (2 * M.n + 2)
    (moorePresplit M, moorePresplit M)).2

/-- Embedding of `moore_greatest_bisimulation`. -/
def moore_greatest_bisimulation (M : MooreE) : List (Finset Nat) :=
  mooreRefine M popLast

/-- The sequence of transition colors produced by a state along a finite
word (`none` from the first missing transition on). -/
def colorTrace (M : MealyE) : Nat → List Nat → Option (List Nat)
  | _, [] => some []
  | q, a :: w =>
      (M.edge q a).bind (fun tc =>
        (colorTrace M tc.1 w).map (fun cs => tc.2 :: cs))

/-- Two states are Mealy-bisimilar when they produce the same sequence of
transition colors on every non-empty word over the alphabet. -/
def MealyEquiv (M : MealyE) (p q : Nat) : Prop :=
  ∀ w : List Nat, w ≠ [] → (∀ a ∈ w, a < M.k) →
    colorTrace M p w = colorTrace M q w

/-- The state reached along a finite word in a Moore automaton. -/
def mooreRun (M : MooreE) : Nat → List Nat → Option Nat
  | q, [] => some q
  | q, a :: w => (M.edge q a).bind (fun t => mooreRun M t w)

/-- Two states are Moore-bisimilar when they agree on the state color
reached along every word over the alphabet, the empty word included. -/
def MooreEquiv (M : MooreE) (p q : Nat) : Prop :=
  ∀ w : List Nat, (∀ a ∈ w, a < M.k) →
    (mooreRun M p w).map M.col = (mooreRun M q w).map M.col

/-- Modelled from the spec: the colors with which the members of a block
leave on symbol `a` — the `Vec<EdgeColor>` handed by the quotient to
`map_edge_colors` (the `quotient` operation itself is not under `src/`);
block members are visited in ascending order (`BTreeSet` iteration). -/
def quotientEdgeColors (M : MealyE) (B : Finset Nat) (a : Nat) : List Nat :=
  (B.sort (· ≤ ·)).filterMap (fun q => (M.edge q a).map Prod.snd)

/-- Embedding of the closure passed to `map_edge_colors` in
`mealy_partition_refinement`: `c[0].clone()` with the agreement assertion
`assert!(c.iter().all_equal())` commented out; indexing an empty vector
panics (`none`), and no other failure is possible. -/
def quotient_color_select (c : List Nat) : Option Nat :=
  c.head?

/-- Closure of a family of sets under disjoint union and relative
difference: the sets derivable from the stable splitters and the pending
queue entries; every partition block stays derivable throughout the
refinement. -/
inductive Derivable (G : List (Finset Nat)) : Finset Nat → Prop
  | mem : ∀ S, S ∈ G → Derivable G S
  | union : ∀ S T, Derivable G S → Derivable G T → S ∩ T = ∅ →
      Derivable G (S ∪ T)
  | sdiff : ∀ S T, Derivable G S → Derivable G T → T ⊆ S →
      Derivable G (S \ T)

/-- `S` is closed under the relation `R` within the state set. -/
def RClosed (n : Nat) (R : Nat → Nat → Prop) (S : Finset Nat) : Prop :=
  ∀ x ∈ S, ∀ y < n, R x y → y ∈ S

/-- Block `Z` is stable for splitter set `X`: swallowed or missed. -/
def StabFor (Z X : Finset Nat) : Prop :=
  Z ⊆ X ∨ Z ∩ X = ∅

/-- `S` is a stable backing set: every block of `P` is stable for every
splitter group generated from `S`. -/
def StabAll (gset : Set (Finset Nat → Finset Nat)) (P : List (Finset Nat))
    (S : Finset Nat) : Prop :=
  ∀ g ∈ gset, ∀ Z ∈ P, StabFor Z (g S)

/-- The Mealy splitter-group generators: one per symbol and color. -/
def mealyGset (M : MealyE) : Set (Finset Nat → Finset Nat) :=
  {g | ∃ a, a < M.k ∧ ∃ c, g = fun S => mealyGrp M S a c}

/-- The Moore splitter-group generators: one per symbol. -/
def mooreGset (M : MooreE) : Set (Finset Nat → Finset Nat) :=
  {g | ∃ a, a < M.k ∧ g = fun S => mooreGrp M S a}

/-- The structural part of the loop invariant: the partition covers the
state set with pairwise disjoint non-empty `R`-closed blocks on which
`base` holds, and queue entries are `R`-closed subsets of the state set. -/
structure PartInv (n : Nat) (R base : Nat → Nat → Prop)
    (Q P : List (Finset Nat)) : Prop where
  cover : ∀ x < n, ∃ B ∈ P, x ∈ B
  subsetP : ∀ B ∈ P, B ⊆ Finset.range n
  disj : P.Pairwise (fun A B => A ∩ B = ∅)
  blocksNonempty : ∀ B ∈ P, B.Nonempty
  subsetQ : ∀ S ∈ Q, S ⊆ Finset.range n
  rcloP : ∀ B ∈ P, RClosed n R B
  rcloQ : ∀ S ∈ Q, RClosed n R S
  baseP : ∀ B ∈ P, ∀ x ∈ B, ∀ y ∈ B, base x y

/-- The full loop invariant: the structural part plus the span property —
some family `F` of already-stabilized backing sets derives, together with
the pending queue, every partition block. -/
structure RefInv (n : Nat) (gset : Set (Finset Nat → Finset Nat))
    (R base : Nat → Nat → Prop) (Q P : List (Finset Nat)) : Prop where
  part : PartInv n R base Q P
  span : ∃ F : List (Finset Nat), (∀ T ∈ F, StabAll gset P T) ∧
    ∀ B ∈ P, Derivable (F ++ Q) B

/-- What one processing step (a splitting pass, or a sequence of them)
guarantees: the bookkeeping equation between queue and partition lengths,
refinement of the partition, preservation of the structural invariant, and
preservation of derivability. -/
structure SplitStep (n : Nat) (R base : Nat → Nat → Prop)
    (QP QP' : List (Finset Nat) × List (Finset Nat)) : Prop where
  len : QP'.1.length + QP.2.length = QP.1.length + QP'.2.length
  plen : QP.2.length ≤ QP'.2.length
  refines : ∀ B' ∈ QP'.2, ∃ B ∈ QP.2, B' ⊆ B
  part : PartInv n R base QP.1 QP.2 → PartInv n R base QP'.1 QP'.2
  deriv : ∀ E : List (Finset Nat), (∀ B ∈ QP.2, Derivable (E ++ QP.1) B) →
    (∀ W, Derivable (E ++ QP.1) W → Derivable (E ++ QP'.1) W) ∧
      ∀ B' ∈ QP'.2, Derivable (E ++ QP'.1) B'

/-- The two-state one-symbol Mealy automaton used as concrete witness
input: both states step to the other with color `5`, so they are
bisimilar. -/
def mealyW : MealyE where
  n := 2
  k := 1
  edge := fun q a => if q < 2 ∧ a = 0 then some (1 - q, 5) else none

/-- The two-state one-symbol Moore automaton used as concrete witness
input: both states have color `7` and step to the other state. -/
def mooreW : MooreE where
  n := 2
  k := 1
  edge := fun q a => if q < 2 ∧ a = 0 then some (1 - q) else none
  col := fun _ => 7

/-- Concrete machine for the quotient-color counterexample: states `0` and
`1` both step to `0`, with colors `0` and `1` respectively. -/
def c6m : MealyE where
  n := 2
  k := 1
  edge := fun q a => if q < 2 ∧ a = 0 then some (0, q) else none

/-!
Theorems.
-/

/-- `optionMapM` succeeds pointwise. -/
theorem optionMapM_eq_some_map {α β : Type} (f : α → Option β) (g : α → β) :
    ∀ l : List α, (∀ x ∈ l, f x = some (g x)) → optionMapM f l = some (l.map g) := by
  intro l h
  induction l with
  | nil => rfl
  | cons x xs ih =>
      simp only [optionMapM, List.map_cons]
      rw [h x (by simp), ih (fun y hy => h y (by simp [hy]))]
      rfl

/-- `position` finds the first index whose element satisfies the
predicate. -/
theorem position_eq_some {α : Type} (pr : α → Bool) :
    ∀ (l : List α) (k : Nat),
      (∀ i, i < k → ∃ x, l.get? i = some x ∧ pr x = false) →
      (∃ x, l.get? k = some x ∧ pr x = true) →
      position pr l = some k := by
  intro l
  induction l with
  | nil =>
      intro k _ hk
      rcases hk with ⟨x, hx, _⟩
      simp at hx
  | cons y ys ih =>
      intro k hlt hk
      cases k with
      | zero =>
          rcases hk with ⟨x, hx, hpx⟩
          simp only [List.get?] at hx
          cases hx
          simp [position, hpx]
      | succ j =>
          rcases hlt 0 (Nat.succ_pos j) with ⟨x, hx, hpx⟩
          simp only [List.get?] at hx
          cases hx
          have hrec := ih j
            (fun i hi => by
              rcases hlt (i + 1) (Nat.succ_lt_succ hi) with ⟨z, hz, hpz⟩
              exact ⟨z, hz, hpz⟩)
            (by rcases hk with ⟨z, hz, hpz⟩; exact ⟨z, hz, hpz⟩)
          simp [position, hpx, hrec]

/-- `padTo` is the identity on lists that already have the target width. -/
theorem padTo_of_length_eq {N : Nat} {l : List Nat} (h : l.length = N) :
    padTo N l = some l := by
  simp [padTo, h]

/-- `PState::from_iters` with two full-width iterators just packages the
lists. -/
theorem from_iters_of_lengths {N leading : Nat} {pc pq : List Nat}
    (hc : pc.length = N) (hq : pq.length = N) :
    PState.from_iters N leading pc pq = some ⟨leading, pc, pq⟩ := by
  simp [PState.from_iters, padTo_of_length_eq hc, padTo_of_length_eq hq]

/-- The enumerated zip of two length-`N` lists, as a map over `range N`. -/
theorem zip_enum_eq_range_map {l₁ l₂ : List Nat} {N : Nat}
    (h₁ : l₁.length = N) (h₂ : l₂.length = N) :
    (l₁.zip l₂).enum =
      (List.range N).map (fun i => (i, l₁.getD i 0, l₂.getD i 0)) := by
  apply List.ext_get?
  intro n
  rw [List.get?_enum, List.get?_map]
  by_cases hn : n < N
  · have e₁ : l₁.get? n = some (l₁.getD n 0) := by
      rw [List.get?_eq_get (by omega), List.getD_eq_get]
    have e₂ : l₂.get? n = some (l₂.getD n 0) := by
      rw [List.get?_eq_get (by omega), List.getD_eq_get]
    rw [List.get?_range hn]
    rw [List.zip, List.get?_zipWith', e₁, e₂]
    rfl
  · have e₁ : (l₁.zip l₂).get? n = none := by
      rw [List.get?_eq_none]
      simp only [List.length_zip]
      omega
    have e₂ : (List.range N).get? n = none := by
      rw [List.get?_eq_none, List.length_range]
      omega
    rw [e₁, e₂]
    rfl

/-- Enumerating a map over `range N` pairs every index with its image. -/
theorem enum_range_map {α : Type} (f : Nat → α) (N : Nat) :
    ((List.range N).map f).enum = (List.range N).map (fun i => (i, f i)) := by
  apply List.ext_get?
  intro n
  rw [List.get?_enum, List.get?_map, List.get?_map]
  by_cases hn : n < N
  · rw [List.get?_range hn]
    rfl
  · have e : (List.range N).get? n = none := by
      rw [List.get?_eq_none, List.length_range]
      omega
    rw [e]
    rfl

/-- Equational shape of `take_precise_transition`: with `d` the leading
successor, `p i`/`b i` the level-`i` progress successor and accepting flag,
and `k` the least accepting level, the transition returns color `k` and
the composite state carrying levels below `k` and resetting the rest. -/
theorem take_precise_transition_eq (dpa : PreciseDPA) (q : PState) (a : Sym)
    (d k : Nat) (p : Nat → Nat) (b : Nat → Bool) (ini : Nat → Nat)
    (hc : q.progress_classes.length = dpa.N)
    (hs : q.progress_states.length = dpa.N)
    (hd : dpa.cong.succ q.cls a = some d)
    (hstep : ∀ i, i < dpa.N → levelSucc dpa q a i = some (p i) ∧
      levelAcc dpa q a i = some (b i))
    (hk : k < dpa.N) (hbk : b k = true) (hlt : ∀ i, i < k → b i = false)
    (hini : ∀ i, i < dpa.N → resetInit dpa d i = some (ini i)) :
    dpa.take_precise_transition q a =
      some (k, ⟨d,
        (List.range dpa.N).map
          (fun i => if i < k then q.progress_classes.getD i 0 else d),
        (List.range dpa.N).map (fun i => if i < k then p i else ini i)⟩) := by
  have hzip := zip_enum_eq_range_map hc hs
  -- the per-level evaluation of the active progress DFAs
  have hprog : optionMapM (fun x => do
      let fam ← dpa.dfas.get? x.2.1
      let dfa ← fam.get? x.1
      let pp ← dfa.succ x.2.2 a
      let bb ← dfa.accept pp
      pure (x.2.1, pp, bb)) (q.progress_classes.zip q.progress_states).enum =
      some ((List.range dpa.N).map
        (fun i => (q.progress_classes.getD i 0, p i, b i))) := by
    rw [hzip]
    have := optionMapM_eq_some_map (α := Nat × Nat × Nat)
      (fun x => do
        let fam ← dpa.dfas.get? x.2.1
        let dfa ← fam.get? x.1
        let pp ← dfa.succ x.2.2 a
        let bb ← dfa.accept pp
        pure (x.2.1, pp, bb))
      (fun x => (x.2.1, p x.1, b x.1))
      ((List.range dpa.N).map (fun i => (i, q.progress_classes.getD i 0,
        q.progress_states.getD i 0)))
      (by
        intro x hx
        rcases List.mem_map.mp hx with ⟨i, hi, rfl⟩
        have hiN : i < dpa.N := List.mem_range.mp hi
        rcases hstep i hiN with ⟨hsucc, hacc⟩
        simp only [levelSucc, levelDFA] at hsucc
        rcases Option.bind_eq_some.mp hsucc with ⟨dfa, hdfa, hsucc'⟩
        rcases Option.bind_eq_some.mp hdfa with ⟨fam, hfam, hget⟩
        simp only [levelAcc, levelDFA, hfam, Option.some_bind, hget,
          hsucc'] at hacc
        show (dpa.dfas.get? (q.progress_classes.getD i 0)).bind _ = _
        rw [hfam]
        show (fam.get? i).bind _ = _
        rw [hget]
        show (dfa.succ (q.progress_states.getD i 0) a).bind _ = _
        rw [hsucc']
        show (dfa.accept (p i)).bind _ = _
        rw [hacc]
        rfl)
    rw [this]
    rw [List.map_map]
    rfl
  -- the least accepting level
  have hpos : position (fun t => t.2.2)
      ((List.range dpa.N).map
        (fun i => (q.progress_classes.getD i 0, p i, b i))) = some k := by
    apply position_eq_some
    · intro i hik
      refine ⟨(q.progress_classes.getD i 0, p i, b i), ?_, ?_⟩
      · rw [List.get?_map, List.get?_range (by omega)]
        rfl
      · exact hlt i hik
    · refine ⟨(q.progress_classes.getD k 0, p k, b k), ?_, ?_⟩
      · rw [List.get?_map, List.get?_range hk]
        rfl
      · exact hbk
  -- the enumerated progress list
  have henum := enum_range_map
    (fun i => (q.progress_classes.getD i 0, p i, b i)) dpa.N
  -- the reset progress states
  have hpss : optionMapM (fun x =>
      if x.1 < k then pure x.2.2.1
      else do
        let fam ← dpa.dfas.get? d
        let dfa ← fam.get? x.1
        pure dfa.init)
      ((List.range dpa.N).map
        (fun i => (i, q.progress_classes.getD i 0, p i, b i))) =
      some ((List.range dpa.N).map (fun i => if i < k then p i else ini i)) := by
    have := optionMapM_eq_some_map (α := Nat × Nat × Nat × Bool)
      (fun x =>
        if x.1 < k then pure x.2.2.1
        else do
          let fam ← dpa.dfas.get? d
          let dfa ← fam.get? x.1
          pure dfa.init)
      (fun x => if x.1 < k then x.2.2.1 else ini x.1)
      ((List.range dpa.N).map
        (fun i => (i, q.progress_classes.getD i 0, p i, b i)))
      (by
        intro x hx
        rcases List.mem_map.mp hx with ⟨i, hi, rfl⟩
        have hiN : i < dpa.N := List.mem_range.mp hi
        by_cases hik : i < k
        · show (if i < k then _ else _) = _
          simp only [if_pos hik]
          rfl
        · have hri := hini i hiN
          simp only [resetInit, Option.map_eq_some'] at hri
          rcases hri with ⟨dfa, hdfa, hinit⟩
          rcases Option.bind_eq_some.mp hdfa with ⟨fam, hfam, hget⟩
          show (if i < k then _ else _) = _
          simp only [if_neg hik]
          show (dpa.dfas.get? d).bind _ = _
          rw [hfam]
          show (fam.get? i).bind _ = _
          rw [hget]
          show some dfa.init = _
          rw [hinit])
    rw [this, List.map_map]
    rfl
  -- assemble the whole transition
  show (dpa.cong.succ q.cls a).bind _ = _
  rw [hd]
  show (optionMapM _ (q.progress_classes.zip q.progress_states).enum).bind _ = _
  rw [hprog]
  show (position (fun t => t.2.2)
      ((List.range dpa.N).map
        (fun i => (q.progress_classes.getD i 0, p i, b i)))).bind _ = _
  rw [hpos]
  show (optionMapM _
      ((List.range dpa.N).map
        (fun i => (q.progress_classes.getD i 0, p i, b i))).enum).bind _ = _
  rw [henum, hpss]
  show (PState.from_iters dpa.N d _ _).bind _ = _
  rw [List.map_map, from_iters_of_lengths (by simp) (by simp)]
  rfl

/-- C1: for every composite state and symbol, with `d` the
leading-congruence successor of the state's class, `p i`/`b i` the level-`i`
progress successor and its accepting flag, and `k` the least accepting
level, `take_precise_transition` returns color `k` and the composite state
with class `d` whose entries below `k` carry `(progress_classes[i], p i)`
and whose entries at or above `k` reset to class `d` and the initial state
of the level-`i` DFA of class `d`'s family. -/
theorem take_precise_transition_spec (dpa : PreciseDPA) (q : PState) (a : Sym)
    (d k : Nat) (p : Nat → Nat) (b : Nat → Bool) (ini : Nat → Nat)
    (hc : q.progress_classes.length = dpa.N)
    (hs : q.progress_states.length = dpa.N)
    (hd : dpa.cong.succ q.cls a = some d)
    (hstep : ∀ i, i < dpa.N → levelSucc dpa q a i = some (p i) ∧
      levelAcc dpa q a i = some (b i))
    (hk : k < dpa.N) (hbk : b k = true) (hlt : ∀ i, i < k → b i = false)
    (hini : ∀ i, i < dpa.N → resetInit dpa d i = some (ini i)) :
    dpa.take_precise_transition q a =
      some (k, ⟨d,
        (List.range dpa.N).map
          (fun i => if i < k then q.progress_classes.getD i 0 else d),
        (List.range dpa.N).map (fun i => if i < k then p i else ini i)⟩) :=
  take_precise_transition_eq dpa q a d k p b ini hc hs hd hstep hk hbk hlt
    hini

/-- C1 witness: the hypotheses of `take_precise_transition_spec` hold, and
the conclusion follows, at the initial composite state of the test precise
DPA on symbol `a`. -/
theorem take_precise_transition_spec_witness :
    (⟨3, [⟨0, [0, 0, 0], [0, 0, 0]⟩], testCong,
        [[de0, de1, fullDFA], [da0, fullDFA, fullDFA]]⟩ :
        PreciseDPA).take_precise_transition ⟨0, [0, 0, 0], [0, 0, 0]⟩ 0 =
      some (2, ⟨1,
        (List.range 3).map (fun i => if i < 2 then
          (([0, 0, 0] : List Nat)).getD i 0 else 1),
        (List.range 3).map (fun i => if i < 2 then
          (if i = 2 then 1 else 0) else 0)⟩) :=
  take_precise_transition_spec
    ⟨3, [⟨0, [0, 0, 0], [0, 0, 0]⟩], testCong,
      [[de0, de1, fullDFA], [da0, fullDFA, fullDFA]]⟩
    ⟨0, [0, 0, 0], [0, 0, 0]⟩ 0 1 2
    (fun i => if i = 2 then 1 else 0) (fun i => i == 2) (fun _ => 0)
    (by decide) (by decide) (by decide) (by decide) (by decide) (by decide)
    (by decide) (by decide)

/-- `getD` on a map over `range N` evaluates the function below `N`. -/
theorem getD_map_range (f : Nat → Nat) {N i : Nat} (h : i < N) :
    ((List.range N).map f).getD i 0 = f i := by
  have hl : i < ((List.range N).map f).length := by
    simp [h]
  rw [List.getD_eq_get _ _ hl]
  simp

/-- Under well-formedness, the reset lookup `dfas[d][i]` of any class `d`
and level `i` succeeds, and the initial state it yields is in range. -/
theorem resetInit_some {dpa : PreciseDPA} (hwf : dpa.WellFormed) {d i : Nat}
    (hd : d < dpa.cong.size) (hi : i < dpa.N) :
    ∃ dfad, (dpa.dfas.get? d).bind (fun fam => fam.get? i) = some dfad ∧
      resetInit dpa d i = some dfad.init ∧ dfad.init < dfad.size := by
  obtain ⟨hN, hcong, hlen, hfam⟩ := hwf
  have hdlen : d < dpa.dfas.length := by omega
  have hdfget : dpa.dfas.get? d = some (dpa.dfas.get ⟨d, hdlen⟩) :=
    List.get?_eq_get hdlen
  obtain ⟨hdflen, hdfmems, _⟩ := hfam _ (List.get_mem dpa.dfas d hdlen)
  have hilen : i < (dpa.dfas.get ⟨d, hdlen⟩).length := by omega
  have higet : (dpa.dfas.get ⟨d, hdlen⟩).get? i =
      some ((dpa.dfas.get ⟨d, hdlen⟩).get ⟨i, hilen⟩) := List.get?_eq_get hilen
  refine ⟨(dpa.dfas.get ⟨d, hdlen⟩).get ⟨i, hilen⟩, ?_, ?_, ?_⟩
  · rw [hdfget, Option.some_bind]
    exact higet
  · show ((dpa.dfas.get? d).bind (fun fam => fam.get? i)).map DFAE.init = _
    rw [hdfget, Option.some_bind, higet]
    rfl
  · exact (hdfmems _ (List.get_mem _ _ hilen)).2.2

/-- Under well-formedness, every level of a composite state whose progress
class is in range has an active progress DFA; that DFA is complete and
colored, its initial state is in range, and at the top level it accepts on
every state. -/
theorem levelDFA_exists {dpa : PreciseDPA} (hwf : dpa.WellFormed)
    {q : PState} {i : Nat} (hi : i < dpa.N)
    (hcl : q.progress_classes.getD i 0 < dpa.cong.size) :
    ∃ dfa, levelDFA dpa q i = some dfa ∧ dfa.Complete dpa.cong.symbols ∧
      dfa.Colored ∧ dfa.init < dfa.size ∧ (i + 1 = dpa.N → dfa.AcceptsAll) := by
  obtain ⟨hN, hcong, hlen, hfam⟩ := hwf
  have hclen : q.progress_classes.getD i 0 < dpa.dfas.length := by omega
  have hfget : dpa.dfas.get? (q.progress_classes.getD i 0) =
      some (dpa.dfas.get ⟨_, hclen⟩) := List.get?_eq_get hclen
  obtain ⟨hflen, hmems, hlast⟩ :=
    hfam _ (List.get_mem dpa.dfas _ hclen)
  have hilen : i < (dpa.dfas.get ⟨_, hclen⟩).length := by omega
  have hdget : (dpa.dfas.get ⟨_, hclen⟩).get? i =
      some ((dpa.dfas.get ⟨_, hclen⟩).get ⟨i, hilen⟩) := List.get?_eq_get hilen
  obtain ⟨hcomp, hcolor, hinit⟩ :=
    hmems _ (List.get_mem (dpa.dfas.get ⟨_, hclen⟩) i hilen)
  refine ⟨(dpa.dfas.get ⟨_, hclen⟩).get ⟨i, hilen⟩, ?_, hcomp, hcolor, hinit,
    ?_⟩
  · show (dpa.dfas.get? (q.progress_classes.getD i 0)).bind
      (fun fam => fam.get? i) = _
    rw [hfget, Option.some_bind]
    exact hdget
  · intro htop
    have hgl : (dpa.dfas.get ⟨_, hclen⟩).getLast? =
        some ((dpa.dfas.get ⟨_, hclen⟩).get ⟨i, hilen⟩) := by
      rw [List.getLast?_eq_getElem?]
      have he : (dpa.dfas.get ⟨_, hclen⟩).length - 1 = i := by omega
      rw [he, ← List.get?_eq_getElem?]
      exact hdget
    refine hlast _ ?_
    rw [hgl]
    simp

/-- Under well-formedness, evaluating a valid level on an alphabet symbol
yields a successor state and an accepting flag; the successor stays in
range and the top level accepts. -/
theorem level_step_exists {dpa : PreciseDPA} (hwf : dpa.WellFormed)
    {q : PState} {a : Sym} (ha : a ∈ dpa.cong.symbols) {i : Nat}
    (hi : i < dpa.N)
    (hcl : q.progress_classes.getD i 0 < dpa.cong.size)
    (hst : ∀ dfa, levelDFA dpa q i = some dfa →
      q.progress_states.getD i 0 < dfa.size) :
    ∃ p b, levelSucc dpa q a i = some p ∧ levelAcc dpa q a i = some b ∧
      (∀ dfa, levelDFA dpa q i = some dfa → p < dfa.size) ∧
      (i + 1 = dpa.N → b = true) := by
  obtain ⟨dfa, hdfa, hcomp, hcolor, _, htopacc⟩ := levelDFA_exists hwf hi hcl
  have hstlt := hst dfa hdfa
  obtain ⟨t, htlt, hsucc⟩ := hcomp _ hstlt a ha
  have hrange : ∀ dfa', levelDFA dpa q i = some dfa' → t < dfa'.size := by
    intro dfa' hdfa'
    rw [hdfa] at hdfa'
    cases hdfa'
    exact htlt
  have hsome : levelSucc dpa q a i = some t := by
    show (levelDFA dpa q i).bind
      (fun dfa => dfa.succ (q.progress_states.getD i 0) a) = some t
    rw [hdfa, Option.some_bind]
    exact hsucc
  by_cases htop : i + 1 = dpa.N
  · refine ⟨t, true, hsome, ?_, hrange, fun _ => rfl⟩
    show (levelDFA dpa q i).bind (fun dfa =>
      (dfa.succ (q.progress_states.getD i 0) a).bind
        (fun p => dfa.accept p)) = some true
    rw [hdfa, Option.some_bind, hsucc, Option.some_bind]
    exact htopacc htop t htlt
  · obtain ⟨bb, hbb⟩ := Option.isSome_iff_exists.mp (hcolor t htlt)
    refine ⟨t, bb, hsome, ?_, hrange, fun h => absurd h htop⟩
    show (levelDFA dpa q i).bind (fun dfa =>
      (dfa.succ (q.progress_states.getD i 0) a).bind
        (fun p => dfa.accept p)) = some bb
    rw [hdfa, Option.some_bind, hsucc, Option.some_bind]
    exact hbb

/-- Supporting totality theorem for C4: from a valid composite state of a
well-formed precise DPA, `take_precise_transition` always succeeds on
alphabet symbols, emits a color below `N`, and reaches a valid composite
state again.  The concrete C4 failure is therefore entirely due to
`PreciseDPA::new` producing an invalid initial state. -/
theorem take_precise_transition_total (dpa : PreciseDPA)
    (hwf : dpa.WellFormed) (q : PState) (hq : ValidPState dpa q) (a : Sym)
    (ha : a ∈ dpa.cong.symbols) :
    ∃ k s, dpa.take_precise_transition q a = some (k, s) ∧ k < dpa.N ∧
      ValidPState dpa s := by
  obtain ⟨hclsq, hc, hs, hclasses, hstates⟩ := hq
  obtain ⟨hN, hcong, hlen, hfam⟩ := hwf
  obtain ⟨d, hdlt, hd⟩ := hcong.2 q.cls hclsq a ha
  have hlev : ∀ i, i < dpa.N →
      ∃ p b, levelSucc dpa q a i = some p ∧ levelAcc dpa q a i = some b ∧
        (∀ dfa, levelDFA dpa q i = some dfa → p < dfa.size) ∧
        (i + 1 = dpa.N → b = true) :=
    fun i hi =>
      level_step_exists ⟨hN, hcong, hlen, hfam⟩ ha hi (hclasses i hi)
        (hstates i hi)
  have hstep : ∀ i, i < dpa.N →
      levelSucc dpa q a i = some ((levelSucc dpa q a i).getD 0) ∧
      levelAcc dpa q a i = some ((levelAcc dpa q a i).getD false) := by
    intro i hi
    obtain ⟨pi, bi, hpi, hbi, _, _⟩ := hlev i hi
    rw [hpi, hbi]
    exact ⟨rfl, rfl⟩
  have htopb : (levelAcc dpa q a (dpa.N - 1)).getD false = true := by
    obtain ⟨pi, bi, hpi, hbi, _, htop⟩ := hlev (dpa.N - 1) (by omega)
    rw [hbi]
    exact htop (by omega)
  have hex : ∃ i, (levelAcc dpa q a i).getD false = true := ⟨_, htopb⟩
  have hbk : (levelAcc dpa q a (Nat.find hex)).getD false = true :=
    Nat.find_spec hex
  have hklt : Nat.find hex < dpa.N := by
    have hle := Nat.find_min' hex htopb
    omega
  have hlt : ∀ i, i < Nat.find hex →
      (levelAcc dpa q a i).getD false = false := by
    intro i hik
    have hnot := Nat.find_min hex hik
    cases hg : (levelAcc dpa q a i).getD false
    · rfl
    · exact absurd hg hnot
  have hini : ∀ i, i < dpa.N →
      resetInit dpa d i = some ((resetInit dpa d i).getD 0) := by
    intro i hi
    obtain ⟨dfad, _, hres, _⟩ := resetInit_some ⟨hN, hcong, hlen, hfam⟩ hdlt hi
    rw [hres]
    rfl
  have htrans := take_precise_transition_eq dpa q a d (Nat.find hex)
    (fun i => (levelSucc dpa q a i).getD 0)
    (fun i => (levelAcc dpa q a i).getD false)
    (fun i => (resetInit dpa d i).getD 0)
    hc hs hd hstep hklt hbk hlt hini
  refine ⟨Nat.find hex, _, htrans, hklt, hdlt, by simp, by simp, ?_, ?_⟩
  · intro i hi
    show ((List.range dpa.N).map
      (fun j => if j < Nat.find hex then q.progress_classes.getD j 0
        else d)).getD i 0 < dpa.cong.size
    rw [getD_map_range _ hi]
    by_cases hik : i < Nat.find hex
    · simpa [hik] using hclasses i hi
    · simpa [hik] using hdlt
  · intro i hi dfa hdfa
    have e1 : (((List.range dpa.N).map
        (fun j => if j < Nat.find hex then q.progress_classes.getD j 0
          else d)).getD i 0) =
        (if i < Nat.find hex then q.progress_classes.getD i 0 else d) :=
      getD_map_range _ hi
    have hdfa2 : (dpa.dfas.get?
        (if i < Nat.find hex then q.progress_classes.getD i 0 else d)).bind
        (fun fam => fam.get? i) = some dfa := by
      rw [← e1]
      exact hdfa
    show ((List.range dpa.N).map
      (fun j => if j < Nat.find hex then (levelSucc dpa q a j).getD 0
        else (resetInit dpa d j).getD 0)).getD i 0 < dfa.size
    rw [getD_map_range _ hi]
    by_cases hik : i < Nat.find hex
    · rw [if_pos hik] at hdfa2
      rw [if_pos hik]
      obtain ⟨pi, bi, hpi, hbi, hrange, _⟩ := hlev i hi
      rw [hpi]
      exact hrange dfa hdfa2
    · rw [if_neg hik] at hdfa2
      rw [if_neg hik]
      obtain ⟨dfad, hdfad, hres, hsz⟩ :=
        resetInit_some ⟨hN, hcong, hlen, hfam⟩ hdlt hi
      rw [hdfad] at hdfa2
      cases hdfa2
      rw [hres]
      exact hsz

/-- Supporting theorem for C4/C5: the initial composite state prescribed by
the spec exists and is valid on every well-formed precise DPA. -/
theorem specInitialPState_valid (dpa : PreciseDPA) (hwf : dpa.WellFormed) :
    ∃ q0, specInitialPState dpa = some q0 ∧ ValidPState dpa q0 := by
  obtain ⟨hN, hcong, hlen, hfam⟩ := hwf
  have hinit : dpa.cong.init < dpa.cong.size := hcong.1
  have hmap := optionMapM_eq_some_map
    (fun i => resetInit dpa dpa.cong.init i)
    (fun i => (resetInit dpa dpa.cong.init i).getD 0) (List.range dpa.N)
    (fun i hi => by
      obtain ⟨dfad, _, hres, _⟩ :=
        resetInit_some ⟨hN, hcong, hlen, hfam⟩ hinit (List.mem_range.mp hi)
      show resetInit dpa dpa.cong.init i =
        some ((resetInit dpa dpa.cong.init i).getD 0)
      rw [hres]
      rfl)
  have hrep : ∀ i, i < dpa.N →
      (List.replicate dpa.N dpa.cong.init).getD i 0 = dpa.cong.init := by
    intro i hi
    rw [List.getD_eq_get _ _ (by simp [hi])]
    simp
  refine ⟨⟨dpa.cong.init, List.replicate dpa.N dpa.cong.init,
    (List.range dpa.N).map
      (fun i => (resetInit dpa dpa.cong.init i).getD 0)⟩, ?_, hinit,
    by simp, by simp, ?_, ?_⟩
  · show (optionMapM (fun i => resetInit dpa dpa.cong.init i)
        (List.range dpa.N)).bind _ = _
    rw [hmap]
    rfl
  · intro i hi
    show (List.replicate dpa.N dpa.cong.init).getD i 0 < dpa.cong.size
    rw [hrep i hi]
    exact hinit
  · intro i hi dfa hdfa
    have hdfa2 : (dpa.dfas.get? dpa.cong.init).bind
        (fun fam => fam.get? i) = some dfa := by
      rw [← hrep i hi]
      exact hdfa
    show ((List.range dpa.N).map
      (fun j => (resetInit dpa dpa.cong.init j).getD 0)).getD i 0 < dfa.size
    rw [getD_map_range _ hi]
    obtain ⟨dfad, hdfad, hres, hsz⟩ :=
      resetInit_some ⟨hN, hcong, hlen, hfam⟩ hinit hi
    rw [hdfad] at hdfa2
    cases hdfa2
    rw [hres]
    exact hsz

/-- Supporting theorem: from the spec's initial composite state of a
well-formed precise DPA, the engine produces a color sequence on every
word over the alphabet, so `take_precise_transition` never panics along
any run that starts at the spec's initial state. -/
theorem engineColors_total_from_spec_init (dpa : PreciseDPA)
    (hwf : dpa.WellFormed) (w : List Sym)
    (hw : ∀ a ∈ w, a ∈ dpa.cong.symbols) :
    ∃ q0, specInitialPState dpa = some q0 ∧
      (engineColors dpa q0 w).isSome := by
  obtain ⟨q0, hq0, hval⟩ := specInitialPState_valid dpa hwf
  refine ⟨q0, hq0, ?_⟩
  clear hq0
  induction w generalizing q0 with
  | nil => simp [engineColors]
  | cons a v ih =>
      obtain ⟨k, s, hts, _, hvs⟩ :=
        take_precise_transition_total dpa hwf q0 hval a (hw a (by simp))
      have hrec : (engineColors dpa s v).isSome :=
        ih (fun x hx => hw x (by simp [hx])) s hvs
      obtain ⟨cs, hcs⟩ := Option.isSome_iff_exists.mp hrec
      simp only [engineColors]
      rw [hts, Option.some_bind, hcs]
      rfl

/-- Running a DFA over a word extended by one symbol first runs the word,
then takes one step. -/
theorem runDFAFrom_snoc (dfa : DFAE) (a : Sym) :
    ∀ (w : List Sym) (s : Nat),
      runDFAFrom dfa s (w ++ [a]) =
        (runDFAFrom dfa s w).bind (fun t => dfa.succ t a) := by
  intro w
  induction w with
  | nil =>
      intro s
      show (dfa.succ s a).bind (fun t => runDFAFrom dfa t []) =
        (some s).bind (fun t => dfa.succ t a)
      rw [Option.some_bind]
      cases h : dfa.succ s a
      · rfl
      · rfl
  | cons x xs ih =>
      intro s
      show (dfa.succ s x).bind (fun t => runDFAFrom dfa t (xs ++ [a])) =
        ((dfa.succ s x).bind (fun t => runDFAFrom dfa t xs)).bind
          (fun t => dfa.succ t a)
      cases h : dfa.succ s x with
      | none => rfl
      | some t =>
          rw [Option.some_bind, Option.some_bind]
          exact ih t

/-- `getD` on a replicated list yields the replicated element below the
width. -/
theorem getD_replicate_lt {α : Type} (x d : α) {N i : Nat} (h : i < N) :
    (List.replicate N x).getD i d = x := by
  rw [List.getD_eq_get _ _ (by simp [h])]
  simp

/-- Enumerating any length-`N` list pairs every index with its `getD`
value. -/
theorem enum_eq_range_map_getD {α : Type} (l : List α) (d : α) {N : Nat}
    (h : l.length = N) :
    l.enum = (List.range N).map (fun i => (i, l.getD i d)) := by
  apply List.ext_get?
  intro n
  rw [List.get?_enum, List.get?_map]
  by_cases hn : n < N
  · rw [List.get?_range hn]
    have e : l.get? n = some (l.getD n d) := by
      rw [List.get?_eq_get (by omega), List.getD_eq_get]
    rw [e]
    rfl
  · have e1 : l.get? n = none := by
      rw [List.get?_eq_none]
      omega
    have e2 : (List.range N).get? n = none := by
      rw [List.get?_eq_none, List.length_range]
      omega
    rw [e1, e2]
    rfl

/-- Equational shape of `directStep`: with `d` the leading successor,
`b i` the level-`i` accepting flag of the re-run DFA, and `k` the least
accepting level, the direct step emits color `k`, extends the segments of
the surviving levels by the symbol and resets the rest to `(d, [])`. -/
theorem directStep_eq (dpa : PreciseDPA) (st : DirectState) (a : Sym)
    (d k : Nat) (b : Nat → Bool)
    (hL : st.lineage.length = dpa.N)
    (hd : dpa.cong.succ st.cls a = some d)
    (hstep : ∀ i, i < dpa.N → directLevelAcc dpa st a i = some (b i))
    (hk : k < dpa.N) (hbk : b k = true) (hlt : ∀ i, i < k → b i = false) :
    directStep dpa st a = some (k, ⟨d,
      (List.range dpa.N).map (fun i => if i < k then
        ((st.lineage.getD i (0, [])).1,
          (st.lineage.getD i (0, [])).2 ++ [a])
        else (d, ([] : List Sym)))⟩) := by
  have henumL := enum_eq_range_map_getD st.lineage (0, ([] : List Sym)) hL
  have hevals : optionMapM (fun x => do
      let fam ← dpa.dfas.get? x.2.1
      let dfa ← fam.get? x.1
      let p ← runDFAFrom dfa dfa.init (x.2.2 ++ [a])
      let bb ← dfa.accept p
      pure (x.2.1, x.2.2 ++ [a], bb)) st.lineage.enum =
      some ((List.range dpa.N).map
        (fun i => ((st.lineage.getD i (0, [])).1,
          (st.lineage.getD i (0, [])).2 ++ [a], b i))) := by
    rw [henumL]
    have := optionMapM_eq_some_map (α := Nat × Nat × List Sym)
      (fun x => do
        let fam ← dpa.dfas.get? x.2.1
        let dfa ← fam.get? x.1
        let p ← runDFAFrom dfa dfa.init (x.2.2 ++ [a])
        let bb ← dfa.accept p
        pure (x.2.1, x.2.2 ++ [a], bb))
      (fun x => (x.2.1, x.2.2 ++ [a], b x.1))
      ((List.range dpa.N).map (fun i => (i, st.lineage.getD i (0, []))))
      (by
        intro x hx
        rcases List.mem_map.mp hx with ⟨i, hi, rfl⟩
        have hiN : i < dpa.N := List.mem_range.mp hi
        have hacc := hstep i hiN
        simp only [directLevelAcc, directLevelDFA] at hacc
        rcases Option.bind_eq_some.mp hacc with ⟨dfa, hdfa, hrest⟩
        rcases Option.bind_eq_some.mp hdfa with ⟨fam, hfam, hget⟩
        rcases Option.bind_eq_some.mp hrest with ⟨p, hrun, haccp⟩
        show (dpa.dfas.get? (st.lineage.getD i (0, [])).1).bind _ = _
        rw [hfam]
        show (fam.get? i).bind _ = _
        rw [hget]
        show (runDFAFrom dfa dfa.init
          ((st.lineage.getD i (0, [])).2 ++ [a])).bind _ = _
        rw [hrun]
        show (dfa.accept p).bind _ = _
        rw [haccp]
        rfl)
    rw [this, List.map_map]
    rfl
  have hpos : position (fun t => t.2.2)
      ((List.range dpa.N).map
        (fun i => ((st.lineage.getD i (0, [])).1,
          (st.lineage.getD i (0, [])).2 ++ [a], b i))) = some k := by
    apply position_eq_some
    · intro i hik
      refine ⟨((st.lineage.getD i (0, [])).1,
        (st.lineage.getD i (0, [])).2 ++ [a], b i), ?_, ?_⟩
      · rw [List.get?_map, List.get?_range (by omega)]
        rfl
      · exact hlt i hik
    · refine ⟨((st.lineage.getD k (0, [])).1,
        (st.lineage.getD k (0, [])).2 ++ [a], b k), ?_, ?_⟩
      · rw [List.get?_map, List.get?_range hk]
        rfl
      · exact hbk
  have henum := enum_range_map
    (fun i => ((st.lineage.getD i (0, [])).1,
      (st.lineage.getD i (0, [])).2 ++ [a], b i)) dpa.N
  show (dpa.cong.succ st.cls a).bind _ = _
  rw [hd]
  show (optionMapM _ st.lineage.enum).bind _ = _
  rw [hevals]
  show (position (fun t => t.2.2)
      ((List.range dpa.N).map
        (fun i => ((st.lineage.getD i (0, [])).1,
          (st.lineage.getD i (0, [])).2 ++ [a], b i)))).bind _ = _
  rw [hpos, Option.some_bind, henum, List.map_map]
  rfl

/-- `getD` on a map over `range N` evaluates the function below `N`, for
any element type. -/
theorem getD_map_range' {α : Type} (f : Nat → α) (d : α) {N i : Nat}
    (h : i < N) : ((List.range N).map f).getD i d = f i := by
  have hl : i < ((List.range N).map f).length := by
    simp [h]
  rw [List.getD_eq_get _ _ hl]
  simp

/-- The spec's initial composite state is aligned with the direct
evaluation's initial state: same class, and every level's empty segment
re-runs to the recorded initial progress state. -/
theorem align_spec_init (dpa : PreciseDPA) (hwf : dpa.WellFormed) :
    ∀ q0, specInitialPState dpa = some q0 → Align dpa q0 (directInit dpa) := by
  have hwf0 := hwf
  obtain ⟨hN, hcong, hlen, hfam⟩ := hwf0
  have hinit : dpa.cong.init < dpa.cong.size := hcong.1
  have hmap := optionMapM_eq_some_map
    (fun i => resetInit dpa dpa.cong.init i)
    (fun i => (resetInit dpa dpa.cong.init i).getD 0) (List.range dpa.N)
    (fun i hi => by
      obtain ⟨dfad, _, hres, _⟩ :=
        resetInit_some hwf hinit (List.mem_range.mp hi)
      show resetInit dpa dpa.cong.init i =
        some ((resetInit dpa dpa.cong.init i).getD 0)
      rw [hres]
      rfl)
  have hspec : specInitialPState dpa = some ⟨dpa.cong.init,
      List.replicate dpa.N dpa.cong.init,
      (List.range dpa.N).map
        (fun i => (resetInit dpa dpa.cong.init i).getD 0)⟩ := by
    show (optionMapM (fun i => resetInit dpa dpa.cong.init i)
        (List.range dpa.N)).bind _ = _
    rw [hmap]
    rfl
  intro q0 hq0
  rw [hspec] at hq0
  cases hq0
  refine ⟨rfl, by simp [directInit], ?_, ?_⟩
  · intro i hi
    show ((List.replicate dpa.N
        (dpa.cong.init, ([] : List Sym))).getD i (0, [])).1 =
      (List.replicate dpa.N dpa.cong.init).getD i 0
    rw [getD_replicate_lt _ _ hi, getD_replicate_lt _ _ hi]
  · intro i hi dfa hdfa
    obtain ⟨dfad, hdfad, hres, _⟩ := resetInit_some hwf hinit hi
    have hrep : (List.replicate dpa.N dpa.cong.init).getD i 0 =
        dpa.cong.init := getD_replicate_lt _ _ hi
    have hdfa2 : (dpa.dfas.get? dpa.cong.init).bind
        (fun fam => fam.get? i) = some dfa := by
      rw [← hrep]
      exact hdfa
    rw [hdfad] at hdfa2
    have hde : dfad = dfa := Option.some.inj hdfa2
    subst hde
    show runDFAFrom dfad dfad.init
        (((List.replicate dpa.N
          (dpa.cong.init, ([] : List Sym))).getD i (0, [])).2) =
      some (((List.range dpa.N).map
        (fun j => (resetInit dpa dpa.cong.init j).getD 0)).getD i 0)
    rw [getD_replicate_lt _ _ hi, getD_map_range _ hi, hres]
    rfl

/-- One aligned step: from a valid composite state aligned with a direct
evaluation state, the engine transition and the direct step both succeed,
emit the same color, and land in states that are again valid and
aligned. -/
theorem align_step (dpa : PreciseDPA) (hwf : dpa.WellFormed)
    (q : PState) (st : DirectState) (hq : ValidPState dpa q)
    (hal : Align dpa q st) (a : Sym) (ha : a ∈ dpa.cong.symbols) :
    ∃ k q' st', dpa.take_precise_transition q a = some (k, q') ∧
      directStep dpa st a = some (k, st') ∧ ValidPState dpa q' ∧
      Align dpa q' st' := by
  obtain ⟨hcls, hL, halc, halr⟩ := hal
  have hq0 := hq
  obtain ⟨hclsq, hc, hs, hclasses, hstates⟩ := hq0
  have hwf0 := hwf
  obtain ⟨hN, hcong, hlen, hfam⟩ := hwf0
  obtain ⟨d, hdlt, hd⟩ := hcong.2 q.cls hclsq a ha
  have hlev : ∀ i, i < dpa.N →
      ∃ p b, levelSucc dpa q a i = some p ∧ levelAcc dpa q a i = some b ∧
        (∀ dfa, levelDFA dpa q i = some dfa → p < dfa.size) ∧
        (i + 1 = dpa.N → b = true) :=
    fun i hi => level_step_exists hwf ha hi (hclasses i hi) (hstates i hi)
  have hstep : ∀ i, i < dpa.N →
      levelSucc dpa q a i = some ((levelSucc dpa q a i).getD 0) ∧
      levelAcc dpa q a i = some ((levelAcc dpa q a i).getD false) := by
    intro i hi
    obtain ⟨pi, bi, hpi, hbi, _, _⟩ := hlev i hi
    rw [hpi, hbi]
    exact ⟨rfl, rfl⟩
  have htopb : (levelAcc dpa q a (dpa.N - 1)).getD false = true := by
    obtain ⟨pi, bi, hpi, hbi, _, htop⟩ := hlev (dpa.N - 1) (by omega)
    rw [hbi]
    exact htop (by omega)
  have hex : ∃ i, (levelAcc dpa q a i).getD false = true := ⟨_, htopb⟩
  have hbk : (levelAcc dpa q a (Nat.find hex)).getD false = true :=
    Nat.find_spec hex
  have hklt : Nat.find hex < dpa.N := by
    have hle := Nat.find_min' hex htopb
    omega
  have hlt : ∀ i, i < Nat.find hex →
      (levelAcc dpa q a i).getD false = false := by
    intro i hik
    have hnot := Nat.find_min hex hik
    cases hg : (levelAcc dpa q a i).getD false
    · rfl
    · exact absurd hg hnot
  have hini : ∀ i, i < dpa.N →
      resetInit dpa d i = some ((resetInit dpa d i).getD 0) := by
    intro i hi
    obtain ⟨dfad, _, hres, _⟩ := resetInit_some hwf hdlt hi
    rw [hres]
    rfl
  have htrans := take_precise_transition_eq dpa q a d (Nat.find hex)
    (fun i => (levelSucc dpa q a i).getD 0)
    (fun i => (levelAcc dpa q a i).getD false)
    (fun i => (resetInit dpa d i).getD 0)
    hc hs hd hstep hklt hbk hlt hini
  have hdstep : ∀ i, i < dpa.N → directLevelAcc dpa st a i =
      some ((levelAcc dpa q a i).getD false) := by
    intro i hi
    obtain ⟨pi, bi, hpi, hbi, _, _⟩ := hlev i hi
    have hbi' := hbi
    simp only [levelAcc, levelDFA] at hbi'
    rcases Option.bind_eq_some.mp hbi' with ⟨dfa, hdfa, hrest⟩
    rcases Option.bind_eq_some.mp hrest with ⟨pp, hsucc, hacc⟩
    have hrun := halr i hi dfa hdfa
    have hdl : directLevelDFA dpa st i = some dfa := by
      show (dpa.dfas.get? (st.lineage.getD i (0, [])).1).bind
        (fun fam => fam.get? i) = some dfa
      rw [halc i hi]
      exact hdfa
    show (directLevelDFA dpa st i).bind (fun dfa =>
      (runDFAFrom dfa dfa.init ((st.lineage.getD i (0, [])).2 ++ [a])).bind
        (fun p => dfa.accept p)) = some ((levelAcc dpa q a i).getD false)
    rw [hdl, Option.some_bind, runDFAFrom_snoc, hrun,
      Option.some_bind, hsucc, Option.some_bind, hacc, hbi]
    rfl
  have hdtrans := directStep_eq dpa st a d (Nat.find hex)
    (fun i => (levelAcc dpa q a i).getD false) hL
    (by rw [hcls]; exact hd) hdstep hklt hbk hlt
  obtain ⟨k0, s0, htr0, _, hvs0⟩ :=
    take_precise_transition_total dpa hwf q hq a ha
  rw [htrans] at htr0
  cases htr0
  refine ⟨Nat.find hex, _, _, htrans, hdtrans, hvs0, rfl, by simp, ?_, ?_⟩
  · intro i hi
    show (((List.range dpa.N).map (fun j => if j < Nat.find hex then
        ((st.lineage.getD j (0, [])).1,
          (st.lineage.getD j (0, [])).2 ++ [a])
        else (d, ([] : List Sym)))).getD i (0, [])).1 =
      ((List.range dpa.N).map
        (fun j => if j < Nat.find hex then q.progress_classes.getD j 0
          else d)).getD i 0
    rw [getD_map_range' _ _ hi, getD_map_range _ hi]
    by_cases hik : i < Nat.find hex
    · simp only [if_pos hik]
      exact halc i hi
    · simp only [if_neg hik]
  · intro i hi dfa hdfa
    have e1 : (((List.range dpa.N).map
        (fun j => if j < Nat.find hex then q.progress_classes.getD j 0
          else d)).getD i 0) =
        (if i < Nat.find hex then q.progress_classes.getD i 0 else d) :=
      getD_map_range _ hi
    have hdfa2 : (dpa.dfas.get?
        (if i < Nat.find hex then q.progress_classes.getD i 0 else d)).bind
        (fun fam => fam.get? i) = some dfa := by
      rw [← e1]
      exact hdfa
    show runDFAFrom dfa dfa.init
        ((((List.range dpa.N).map (fun j => if j < Nat.find hex then
          ((st.lineage.getD j (0, [])).1,
            (st.lineage.getD j (0, [])).2 ++ [a])
          else (d, ([] : List Sym)))).getD i (0, [])).2) =
      some (((List.range dpa.N).map
        (fun j => if j < Nat.find hex then (levelSucc dpa q a j).getD 0
          else (resetInit dpa d j).getD 0)).getD i 0)
    rw [getD_map_range' _ _ hi, getD_map_range _ hi]
    by_cases hik : i < Nat.find hex
    · simp only [if_pos hik]
      simp only [if_pos hik] at hdfa2
      obtain ⟨pi, bi, hpi, hbi, _, _⟩ := hlev i hi
      have hpi' := hpi
      simp only [levelSucc, levelDFA] at hpi'
      rcases Option.bind_eq_some.mp hpi' with ⟨dfai, hdfai, hsucci⟩
      rw [hdfai] at hdfa2
      have hde : dfai = dfa := Option.some.inj hdfa2
      subst hde
      have hrun := halr i hi dfai hdfai
      rw [runDFAFrom_snoc, hrun, Option.some_bind, hsucci, hpi]
      rfl
    · simp only [if_neg hik]
      simp only [if_neg hik] at hdfa2
      obtain ⟨dfad, hdfad, hres, _⟩ := resetInit_some hwf hdlt hi
      rw [hdfad] at hdfa2
      have hde : dfad = dfa := Option.some.inj hdfa2
      subst hde
      rw [hres]
      rfl

/-- Supporting theorem for C2: once an engine composite state and a direct
evaluation state are aligned, the incremental engine and the direct
least-accepting-index evaluation produce the same color sequence on every
word over the alphabet. -/
theorem engine_matches_direct_of_aligned (dpa : PreciseDPA)
    (hwf : dpa.WellFormed) (w : List Sym) :
    ∀ q st, ValidPState dpa q → Align dpa q st →
      (∀ a ∈ w, a ∈ dpa.cong.symbols) →
      engineColors dpa q w = directColors dpa st w := by
  induction w with
  | nil =>
      intro q st _ _ _
      rfl
  | cons a v ih =>
      intro q st hq hal hw
      obtain ⟨k, q', st', htr, hdir, hq', hal'⟩ :=
        align_step dpa hwf q st hq hal a (hw a (by simp))
      have hrec := ih q' st' hq' hal' (fun x hx => hw x (by simp [hx]))
      simp only [engineColors, directColors]
      rw [htr, hdir, Option.some_bind, Option.some_bind]
      show (engineColors dpa q' v).map _ = (directColors dpa st' v).map _
      rw [hrec]

/-- Supporting theorem for C2: on a well-formed precise DPA, the engine
started from the spec's initial composite state agrees with the direct
least-accepting-index evaluation on every word over the alphabet; the
concrete C2 divergence is therefore entirely due to the initial state
built by `PreciseDPA::new`. -/
theorem engine_direct_agree_from_spec_init (dpa : PreciseDPA)
    (hwf : dpa.WellFormed) (w : List Sym)
    (hw : ∀ a ∈ w, a ∈ dpa.cong.symbols) :
    ∃ q0, specInitialPState dpa = some q0 ∧
      engineColors dpa q0 w = directColors dpa (directInit dpa) w := by
  obtain ⟨q0, hq0, hval⟩ := specInitialPState_valid dpa hwf
  exact ⟨q0, hq0, engine_matches_direct_of_aligned dpa hwf w q0
    (directInit dpa) hval (align_spec_init dpa hwf q0 hq0) hw⟩

/-- Derivability is transported along pointwise derivability of the
environment. -/
theorem derivable_trans {G G' : List (Finset Nat)} {B : Finset Nat}
    (h : ∀ T ∈ G, Derivable G' T) (hB : Derivable G B) : Derivable G' B := by
  induction hB with
  | mem S hS => exact h S hS
  | union S T _ _ hdisj ihS ihT => exact Derivable.union S T ihS ihT hdisj
  | sdiff S T _ _ hsub ihS ihT => exact Derivable.sdiff S T ihS ihT hsub

/-- Derivability is monotone in the environment. -/
theorem derivable_mono {G G' : List (Finset Nat)} {B : Finset Nat}
    (h : ∀ T ∈ G, T ∈ G') (hB : Derivable G B) : Derivable G' B :=
  derivable_trans (fun T hT => Derivable.mem T (h T hT)) hB

/-- Stability of a fixed block is preserved under derivation, for any
splitter generator commuting with disjoint union and relative
difference. -/
theorem derivable_stabFor (g : Finset Nat → Finset Nat)
    (hu : ∀ S T, S ∩ T = ∅ → g (S ∪ T) = g S ∪ g T)
    (hdiff : ∀ S T, T ⊆ S → g (S \ T) = g S \ g T)
    (Z : Finset Nat) (G : List (Finset Nat))
    (hG : ∀ T ∈ G, StabFor Z (g T)) :
    ∀ B, Derivable G B → StabFor Z (g B) := by
  intro B h
  induction h with
  | mem S hS => exact hG S hS
  | union S T _ _ hdisj ihS ihT =>
      rw [hu S T hdisj]
      rcases ihS with h1 | h1
      · exact Or.inl (h1.trans Finset.subset_union_left)
      · rcases ihT with h2 | h2
        · exact Or.inl (h2.trans Finset.subset_union_right)
        · refine Or.inr (Finset.eq_empty_iff_forall_not_mem.mpr ?_)
          intro x hx
          rw [Finset.mem_inter, Finset.mem_union] at hx
          rcases hx.2 with hgs | hgt
          · exact Finset.eq_empty_iff_forall_not_mem.mp h1 x
              (Finset.mem_inter.mpr ⟨hx.1, hgs⟩)
          · exact Finset.eq_empty_iff_forall_not_mem.mp h2 x
              (Finset.mem_inter.mpr ⟨hx.1, hgt⟩)
  | sdiff S T _ _ hsub ihS ihT =>
      rw [hdiff S T hsub]
      rcases ihS with h1 | h1
      · rcases ihT with h2 | h2
        · refine Or.inr (Finset.eq_empty_iff_forall_not_mem.mpr ?_)
          intro x hx
          rw [Finset.mem_inter, Finset.mem_sdiff] at hx
          exact hx.2.2 (h2 hx.1)
        · refine Or.inl ?_
          intro x hx
          rw [Finset.mem_sdiff]
          refine ⟨h1 hx, fun hxT => ?_⟩
          exact Finset.eq_empty_iff_forall_not_mem.mp h2 x
            (Finset.mem_inter.mpr ⟨hx, hxT⟩)
      · refine Or.inr (Finset.eq_empty_iff_forall_not_mem.mpr ?_)
        intro x hx
        rw [Finset.mem_inter, Finset.mem_sdiff] at hx
        exact Finset.eq_empty_iff_forall_not_mem.mp h1 x
          (Finset.mem_inter.mpr ⟨hx.1, hx.2.1⟩)

/-- Stability is inherited by subsets of the block. -/
theorem stabFor_subset {Z' Z X : Finset Nat} (h : Z' ⊆ Z) :
    StabFor Z X → StabFor Z' X := by
  rintro (h1 | h1)
  · exact Or.inl (h.trans h1)
  · refine Or.inr (Finset.eq_empty_iff_forall_not_mem.mpr ?_)
    intro x hx
    rw [Finset.mem_inter] at hx
    exact Finset.eq_empty_iff_forall_not_mem.mp h1 x
      (Finset.mem_inter.mpr ⟨h hx.1, hx.2⟩)

/-- `R`-closedness is preserved by intersection. -/
theorem rclosed_inter {n : Nat} {R : Nat → Nat → Prop} {X Y : Finset Nat}
    (hX : RClosed n R X) (hY : RClosed n R Y) : RClosed n R (X ∩ Y) := by
  intro x hx y hy hR
  rw [Finset.mem_inter] at hx ⊢
  exact ⟨hX x hx.1 y hy hR, hY x hx.2 y hy hR⟩

/-- `R`-closedness is preserved by difference, for symmetric `R` and
blocks inside the state set. -/
theorem rclosed_sdiff {n : Nat} {R : Nat → Nat → Prop}
    (hsym : ∀ x y, R x y → R y x) {X Y : Finset Nat}
    (hY : RClosed n R Y) (hX : RClosed n R X)
    (hYsub : Y ⊆ Finset.range n) : RClosed n R (Y \ X) := by
  intro x hx y hy hR
  rw [Finset.mem_sdiff] at hx ⊢
  refine ⟨hY x hx.1 y hy hR, fun hyX => ?_⟩
  exact hx.2 (hX y hyX x (Finset.mem_range.mp (hYsub hx.1)) (hsym x y hR))

/-- Membership in a Mealy splitter group, unfolded. -/
theorem mem_mealyGrp {M : MealyE} {S : Finset Nat} {a c q : Nat} :
    q ∈ mealyGrp M S a c ↔
      q < M.n ∧ ∃ t, M.edge q a = some (t, c) ∧ t ∈ S := by
  rw [mealyGrp, Finset.mem_filter, Finset.mem_range, mealyHits]
  constructor
  · rintro ⟨hq, hh⟩
    refine ⟨hq, ?_⟩
    cases he : M.edge q a with
    | none => rw [he] at hh; cases hh
    | some tc =>
        rw [he] at hh
        simp only [Bool.and_eq_true, decide_eq_true_eq] at hh
        exact ⟨tc.1, by rw [← hh.2], hh.1⟩
  · rintro ⟨hq, t, he, ht⟩
    refine ⟨hq, ?_⟩
    rw [he]
    simp [ht]

/-- Mealy splitter groups commute with unions of backing sets. -/
theorem mealyGrp_union (M : MealyE) (a c : Nat) (S T : Finset Nat) :
    mealyGrp M (S ∪ T) a c = mealyGrp M S a c ∪ mealyGrp M T a c := by
  ext q
  rw [Finset.mem_union, mem_mealyGrp, mem_mealyGrp, mem_mealyGrp]
  constructor
  · rintro ⟨hq, t, he, ht⟩
    rw [Finset.mem_union] at ht
    rcases ht with ht | ht
    · exact Or.inl ⟨hq, t, he, ht⟩
    · exact Or.inr ⟨hq, t, he, ht⟩
  · rintro (⟨hq, t, he, ht⟩ | ⟨hq, t, he, ht⟩)
    · exact ⟨hq, t, he, Finset.mem_union_left _ ht⟩
    · exact ⟨hq, t, he, Finset.mem_union_right _ ht⟩

/-- Mealy splitter groups commute with differences of backing sets. -/
theorem mealyGrp_sdiff (M : MealyE) (a c : Nat) (S T : Finset Nat) :
    mealyGrp M (S \ T) a c = mealyGrp M S a c \ mealyGrp M T a c := by
  ext q
  rw [Finset.mem_sdiff, mem_mealyGrp, mem_mealyGrp, mem_mealyGrp]
  constructor
  · rintro ⟨hq, t, he, ht⟩
    rw [Finset.mem_sdiff] at ht
    refine ⟨⟨hq, t, he, ht.1⟩, ?_⟩
    rintro ⟨-, t', he', ht'⟩
    rw [he] at he'
    cases he'
    exact ht.2 ht'
  · rintro ⟨⟨hq, t, he, ht⟩, hn⟩
    refine ⟨hq, t, he, Finset.mem_sdiff.mpr ⟨ht, fun htT => hn ⟨hq, t, he, htT⟩⟩⟩

/-- Membership in a Moore splitter set, unfolded. -/
theorem mem_mooreGrp {M : MooreE} {S : Finset Nat} {a q : Nat} :
    q ∈ mooreGrp M S a ↔ q < M.n ∧ ∃ t, M.edge q a = some t ∧ t ∈ S := by
  rw [mooreGrp, Finset.mem_filter, Finset.mem_range]
  constructor
  · rintro ⟨hq, hh⟩
    refine ⟨hq, ?_⟩
    cases he : M.edge q a with
    | none => rw [he] at hh; cases hh
    | some t =>
        rw [he] at hh
        simp only [Option.map_some', Option.getD_some, decide_eq_true_eq] at hh
        exact ⟨t, rfl, hh⟩
  · rintro ⟨hq, t, he, ht⟩
    refine ⟨hq, ?_⟩
    rw [he]
    simp [ht]

/-- Moore splitter sets commute with unions of backing sets. -/
theorem mooreGrp_union (M : MooreE) (a : Nat) (S T : Finset Nat) :
    mooreGrp M (S ∪ T) a = mooreGrp M S a ∪ mooreGrp M T a := by
  ext q
  rw [Finset.mem_union, mem_mooreGrp, mem_mooreGrp, mem_mooreGrp]
  constructor
  · rintro ⟨hq, t, he, ht⟩
    rw [Finset.mem_union] at ht
    rcases ht with ht | ht
    · exact Or.inl ⟨hq, t, he, ht⟩
    · exact Or.inr ⟨hq, t, he, ht⟩
  · rintro (⟨hq, t, he, ht⟩ | ⟨hq, t, he, ht⟩)
    · exact ⟨hq, t, he, Finset.mem_union_left _ ht⟩
    · exact ⟨hq, t, he, Finset.mem_union_right _ ht⟩

/-- Moore splitter sets commute with differences of backing sets. -/
theorem mooreGrp_sdiff (M : MooreE) (a : Nat) (S T : Finset Nat) :
    mooreGrp M (S \ T) a = mooreGrp M S a \ mooreGrp M T a := by
  ext q
  rw [Finset.mem_sdiff, mem_mooreGrp, mem_mooreGrp, mem_mooreGrp]
  constructor
  · rintro ⟨hq, t, he, ht⟩
    rw [Finset.mem_sdiff] at ht
    refine ⟨⟨hq, t, he, ht.1⟩, ?_⟩
    rintro ⟨-, t', he', ht'⟩
    rw [he] at he'
    cases he'
    exact ht.2 ht'
  · rintro ⟨⟨hq, t, he, ht⟩, hn⟩
    exact ⟨hq, t, he, Finset.mem_sdiff.mpr ⟨ht, fun htT => hn ⟨hq, t, he, htT⟩⟩⟩

/-- Colors that never enter `S` on `a` generate empty splitter groups. -/
theorem mealyGrp_empty_of_not_colorsInto {M : MealyE} {S : Finset Nat}
    {a c : Nat} (h : c ∉ mealyColorsInto M S a) : mealyGrp M S a c = ∅ := by
  rw [Finset.eq_empty_iff_forall_not_mem]
  intro q hq
  rcases mem_mealyGrp.mp hq with ⟨hqn, t, he, ht⟩
  refine h ?_
  rw [mealyColorsInto, Finset.mem_image]
  refine ⟨q, ?_, ?_⟩
  · rw [Finset.mem_filter, Finset.mem_range]
    refine ⟨hqn, ?_⟩
    rw [he]
    simp [ht]
  · rw [he]
    rfl

/-- The queue update adds exactly one entry. -/
theorem splitQueue_length (X Y : Finset Nat) (Q : List (Finset Nat)) :
    (splitQueue X Y Q).length = Q.length + 1 := by
  rw [splitQueue]
  cases hf : Q.findIdx? (fun o => o == Y) with
  | none => simp
  | some pos =>
      rcases List.findIdx?_eq_some_iff_getElem.mp hf with ⟨hpos, -, -⟩
      simp only [List.length_append, List.length_cons, List.length_nil,
        List.length_eraseIdx_of_lt hpos]
      omega

/-- Membership in a list splits at any valid index. -/
theorem mem_eraseIdx_or_eq {Q : List (Finset Nat)} {pos : Nat}
    (hpos : pos < Q.length) :
    ∀ T ∈ Q, T ∈ Q.eraseIdx pos ∨ T = Q.get ⟨pos, hpos⟩ := by
  intro T hT
  rcases List.mem_iff_getElem?.mp hT with ⟨i, hi⟩
  by_cases hip : i = pos
  · subst hip
    rw [List.getElem?_eq_getElem hpos] at hi
    right
    cases hi
    rfl
  · exact Or.inl (List.mem_eraseIdx_iff_getElem?.mpr ⟨i, hip, hi⟩)

/-- Every entry of the updated queue is an old entry or a part of `Y`. -/
theorem splitQueue_mem {X Y : Finset Nat} {Q : List (Finset Nat)} :
    ∀ T ∈ splitQueue X Y Q, T ∈ Q ∨ T = X ∩ Y ∨ T = Y \ X := by
  intro T hT
  rw [splitQueue] at hT
  cases hf : Q.findIdx? (fun o => o == Y) with
  | none =>
      rw [hf] at hT
      rcases List.mem_append.mp hT with h | h
      · exact Or.inl h
      · simp only [List.mem_singleton] at h
        by_cases hcard : (X ∩ Y).card ≤ (Y \ X).card
        · rw [if_pos hcard] at h
          exact Or.inr (Or.inl h)
        · rw [if_neg hcard] at h
          exact Or.inr (Or.inr h)
  | some pos =>
      rw [hf] at hT
      rcases List.mem_append.mp hT with h | h
      · rcases List.mem_eraseIdx_iff_getElem?.mp h with ⟨i, _, hi⟩
        exact Or.inl (List.getElem?_mem hi)
      · rcases List.mem_cons.mp h with h | h
        · exact Or.inr (Or.inl h)
        · simp only [List.mem_singleton] at h
          exact Or.inr (Or.inr h)

/-- A block is the disjoint union of its two parts. -/
theorem parts_union (X Y : Finset Nat) : (X ∩ Y) ∪ (Y \ X) = Y := by
  ext x
  simp only [Finset.mem_union, Finset.mem_inter, Finset.mem_sdiff]
  tauto

/-- The two parts of a split block are disjoint. -/
theorem parts_disj (X Y : Finset Nat) : (X ∩ Y) ∩ (Y \ X) = ∅ := by
  ext x
  simp only [Finset.mem_inter, Finset.mem_sdiff, Finset.not_mem_empty,
    iff_false]
  tauto

/-- The difference part re-derived from the block and the intersection. -/
theorem sdiff_inter_part (X Y : Finset Nat) : Y \ (X ∩ Y) = Y \ X := by
  ext x
  simp only [Finset.mem_sdiff, Finset.mem_inter]
  tauto

/-- The intersection part re-derived from the block and the difference. -/
theorem inter_sdiff_part (X Y : Finset Nat) : Y \ (Y \ X) = X ∩ Y := by
  ext x
  simp only [Finset.mem_sdiff, Finset.mem_inter]
  tauto

/-- Derivability is transported through the queue update: whatever was
derivable stays derivable, and both parts of the split block become
derivable. -/
theorem splitQueue_derivable (E Q : List (Finset Nat)) (X Y : Finset Nat)
    (hY : Derivable (E ++ Q) Y) :
    (∀ W, Derivable (E ++ Q) W → Derivable (E ++ splitQueue X Y Q) W) ∧
    Derivable (E ++ splitQueue X Y Q) (X ∩ Y) ∧
    Derivable (E ++ splitQueue X Y Q) (Y \ X) := by
  rw [splitQueue]
  cases hf : Q.findIdx? (fun o => o == Y) with
  | some pos =>
      rcases List.findIdx?_eq_some_iff_getElem.mp hf with ⟨hpos, hpY, -⟩
      have hQY : Q.get ⟨pos, hpos⟩ = Y := by
        simpa using hpY
      have hint : (X ∩ Y) ∈ E ++ (Q.eraseIdx pos ++ [X ∩ Y, Y \ X]) := by simp
      have hdiffm : (Y \ X) ∈ E ++ (Q.eraseIdx pos ++ [X ∩ Y, Y \ X]) := by simp
      refine ⟨?_, Derivable.mem _ hint, Derivable.mem _ hdiffm⟩
      intro W hW
      refine derivable_trans ?_ hW
      intro T hT
      rcases List.mem_append.mp hT with h | h
      · exact Derivable.mem _ (by simp [h])
      · rcases mem_eraseIdx_or_eq hpos T h with h' | h'
        · exact Derivable.mem _ (by simp [List.mem_append, h'])
        · have hu := Derivable.union _ _ (Derivable.mem _ hint)
            (Derivable.mem _ hdiffm) (parts_disj X Y)
          rw [parts_union X Y] at hu
          rw [h', hQY]
          exact hu
  | none =>
      by_cases hcard : (X ∩ Y).card ≤ (Y \ X).card
      · rw [if_pos hcard]
        have hmono : ∀ W, Derivable (E ++ Q) W →
            Derivable (E ++ (Q ++ [X ∩ Y])) W := by
          intro W hW
          refine derivable_mono ?_ hW
          intro T hT
          rcases List.mem_append.mp hT with h | h
          · simp [h]
          · simp [h]
        have hintD : Derivable (E ++ (Q ++ [X ∩ Y])) (X ∩ Y) :=
          Derivable.mem _ (by simp)
        refine ⟨hmono, hintD, ?_⟩
        have hs := Derivable.sdiff Y (X ∩ Y) (hmono Y hY) hintD
          (fun x hx => (Finset.mem_inter.mp hx).2)
        rwa [sdiff_inter_part X Y] at hs
      · rw [if_neg hcard]
        have hmono : ∀ W, Derivable (E ++ Q) W →
            Derivable (E ++ (Q ++ [Y \ X])) W := by
          intro W hW
          refine derivable_mono ?_ hW
          intro T hT
          rcases List.mem_append.mp hT with h | h
          · simp [h]
          · simp [h]
        have hdiffD : Derivable (E ++ (Q ++ [Y \ X])) (Y \ X) :=
          Derivable.mem _ (by simp)
        refine ⟨hmono, ?_, hdiffD⟩
        have hs := Derivable.sdiff Y (Y \ X) (hmono Y hY) hdiffD
          (fun x hx => (Finset.mem_sdiff.mp hx).1)
        rwa [inter_sdiff_part X Y] at hs

/-- Unfolding `applySplitter` when the block is kept. -/
theorem applySplitter_cons_keep (X Y : Finset Nat)
    (Q rest : List (Finset Nat)) (hc : X ∩ Y = ∅ ∨ Y \ X = ∅) :
    applySplitter X Q (Y :: rest) =
      ((applySplitter X Q rest).1, Y :: (applySplitter X Q rest).2) := by
  simp only [applySplitter, if_pos hc]

/-- Unfolding `applySplitter` when the block is split. -/
theorem applySplitter_cons_split (X Y : Finset Nat)
    (Q rest : List (Finset Nat)) (hc : ¬(X ∩ Y = ∅ ∨ Y \ X = ∅)) :
    applySplitter X Q (Y :: rest) =
      ((applySplitter X (splitQueue X Y Q) rest).1,
        (X ∩ Y) :: (Y \ X) ::
          (applySplitter X (splitQueue X Y Q) rest).2) := by
  simp only [applySplitter, if_neg hc]

/-- Blocks of the result of a splitting pass: kept blocks that the group
missed or swallowed, or parts of properly split blocks. -/
theorem applySplitter_blocks (X : Finset Nat) :
    ∀ (P Q : List (Finset Nat)), ∀ B' ∈ (applySplitter X Q P).2,
      (B' ∈ P ∧ (X ∩ B' = ∅ ∨ B' \ X = ∅)) ∨
      ∃ Y ∈ P, ¬(X ∩ Y = ∅ ∨ Y \ X = ∅) ∧ (B' = X ∩ Y ∨ B' = Y \ X) := by
  intro P
  induction P with
  | nil =>
      intro Q B' hB'
      simp [applySplitter] at hB'
  | cons Y rest ih =>
      intro Q B' hB'
      by_cases hc : X ∩ Y = ∅ ∨ Y \ X = ∅
      · rw [applySplitter_cons_keep X Y Q rest hc] at hB'
        rcases List.mem_cons.mp hB' with h | h
        · exact Or.inl ⟨by simp [h], h ▸ hc⟩
        · rcases ih Q B' h with ⟨h1, h2⟩ | ⟨Z, hZ, h1, h2⟩
          · exact Or.inl ⟨List.mem_cons_of_mem _ h1, h2⟩
          · exact Or.inr ⟨Z, List.mem_cons_of_mem _ hZ, h1, h2⟩
      · rw [applySplitter_cons_split X Y Q rest hc] at hB'
        rcases List.mem_cons.mp hB' with h | h
        · exact Or.inr ⟨Y, List.mem_cons_self _ _, hc, Or.inl h⟩
        · rcases List.mem_cons.mp h with h | h
          · exact Or.inr ⟨Y, List.mem_cons_self _ _, hc, Or.inr h⟩
          · rcases ih (splitQueue X Y Q) B' h with ⟨h1, h2⟩ | ⟨Z, hZ, h1, h2⟩
            · exact Or.inl ⟨List.mem_cons_of_mem _ h1, h2⟩
            · exact Or.inr ⟨Z, List.mem_cons_of_mem _ hZ, h1, h2⟩

/-- Every result block is stable for the splitter group. -/
theorem applySplitter_stab (X : Finset Nat) (P Q : List (Finset Nat)) :
    ∀ B' ∈ (applySplitter X Q P).2, StabFor B' X := by
  intro B' hB'
  rcases applySplitter_blocks X P Q B' hB' with ⟨-, h2⟩ | ⟨Y, -, -, h2⟩
  · rcases h2 with h | h
    · refine Or.inr ?_
      rw [Finset.inter_comm]
      exact h
    · exact Or.inl (Finset.sdiff_eq_empty_iff_subset.mp h)
  · rcases h2 with rfl | rfl
    · exact Or.inl Finset.inter_subset_left
    · refine Or.inr (Finset.eq_empty_iff_forall_not_mem.mpr ?_)
      intro x hx
      rw [Finset.mem_inter, Finset.mem_sdiff] at hx
      exact hx.1.2 hx.2

/-- Every result block refines the input partition. -/
theorem applySplitter_refines (X : Finset Nat) (P Q : List (Finset Nat)) :
    ∀ B' ∈ (applySplitter X Q P).2, ∃ B ∈ P, B' ⊆ B := by
  intro B' hB'
  rcases applySplitter_blocks X P Q B' hB' with ⟨h1, -⟩ | ⟨Y, hY, -, h2⟩
  · exact ⟨B', h1, subset_rfl⟩
  · rcases h2 with rfl | rfl
    · exact ⟨Y, hY, Finset.inter_subset_right⟩
    · exact ⟨Y, hY, Finset.sdiff_subset⟩

/-- A splitting pass preserves the union of the partition. -/
theorem applySplitter_union_iff (X : Finset Nat) :
    ∀ (P Q : List (Finset Nat)) (x : Nat),
      (∃ B ∈ (applySplitter X Q P).2, x ∈ B) ↔ ∃ B ∈ P, x ∈ B := by
  intro P
  induction P with
  | nil =>
      intro Q x
      simp [applySplitter]
  | cons Y rest ih =>
      intro Q x
      by_cases hc : X ∩ Y = ∅ ∨ Y \ X = ∅
      · rw [applySplitter_cons_keep X Y Q rest hc]
        constructor
        · rintro ⟨B, hB, hx⟩
          rcases List.mem_cons.mp hB with rfl | hB
          · exact ⟨B, List.mem_cons_self _ _, hx⟩
          · rcases (ih Q x).mp ⟨B, hB, hx⟩ with ⟨C, hC, hxC⟩
            exact ⟨C, List.mem_cons_of_mem _ hC, hxC⟩
        · rintro ⟨B, hB, hx⟩
          rcases List.mem_cons.mp hB with rfl | hB
          · exact ⟨B, List.mem_cons_self _ _, hx⟩
          · rcases (ih Q x).mpr ⟨B, hB, hx⟩ with ⟨C, hC, hxC⟩
            exact ⟨C, List.mem_cons_of_mem _ hC, hxC⟩
      · rw [applySplitter_cons_split X Y Q rest hc]
        constructor
        · rintro ⟨B, hB, hx⟩
          rcases List.mem_cons.mp hB with rfl | hB
          · exact ⟨Y, List.mem_cons_self _ _, (Finset.mem_inter.mp hx).2⟩
          · rcases List.mem_cons.mp hB with rfl | hB
            · exact ⟨Y, List.mem_cons_self _ _, (Finset.mem_sdiff.mp hx).1⟩
            · rcases (ih (splitQueue X Y Q) x).mp ⟨B, hB, hx⟩ with ⟨C, hC, hxC⟩
              exact ⟨C, List.mem_cons_of_mem _ hC, hxC⟩
        · rintro ⟨B, hB, hx⟩
          rcases List.mem_cons.mp hB with rfl | hB
          · by_cases hxX : x ∈ X
            · exact ⟨X ∩ B, List.mem_cons_self _ _,
                Finset.mem_inter.mpr ⟨hxX, hx⟩⟩
            · exact ⟨B \ X, List.mem_cons_of_mem _ (List.mem_cons_self _ _),
                Finset.mem_sdiff.mpr ⟨hx, hxX⟩⟩
          · rcases (ih (splitQueue X Y Q) x).mpr ⟨B, hB, hx⟩ with ⟨C, hC, hxC⟩
            exact ⟨C, List.mem_cons_of_mem _ (List.mem_cons_of_mem _ hC), hxC⟩

/-- Helper: disjointness descends to subsets. -/
theorem inter_empty_of_subsets {A A' B B' : Finset Nat} (hA : A ⊆ A')
    (hB : B ⊆ B') (h : A' ∩ B' = ∅) : A ∩ B = ∅ := by
  refine Finset.eq_empty_iff_forall_not_mem.mpr ?_
  intro x hx
  rw [Finset.mem_inter] at hx
  exact Finset.eq_empty_iff_forall_not_mem.mp h x
    (Finset.mem_inter.mpr ⟨hA hx.1, hB hx.2⟩)

/-- A splitting pass preserves pairwise disjointness of the partition. -/
theorem applySplitter_disj (X : Finset Nat) :
    ∀ (P Q : List (Finset Nat)),
      P.Pairwise (fun A B => A ∩ B = ∅) →
      (applySplitter X Q P).2.Pairwise (fun A B => A ∩ B = ∅) := by
  intro P
  induction P with
  | nil =>
      intro Q _
      simp [applySplitter]
  | cons Y rest ih =>
      intro Q hP
      rcases List.pairwise_cons.mp hP with ⟨hhead, htail⟩
      by_cases hc : X ∩ Y = ∅ ∨ Y \ X = ∅
      · rw [applySplitter_cons_keep X Y Q rest hc]
        refine List.pairwise_cons.mpr ⟨?_, ih Q htail⟩
        intro B' hB'
        rcases applySplitter_refines X rest Q B' hB' with ⟨Z, hZ, hsub⟩
        exact inter_empty_of_subsets subset_rfl hsub (hhead Z hZ)
      · rw [applySplitter_cons_split X Y Q rest hc]
        have hrest : ∀ B' ∈ (applySplitter X (splitQueue X Y Q) rest).2,
            ∀ {W : Finset Nat}, W ⊆ Y → W ∩ B' = ∅ := by
          intro B' hB' W hW
          rcases applySplitter_refines X rest (splitQueue X Y Q) B' hB'
            with ⟨Z, hZ, hsub⟩
          exact inter_empty_of_subsets hW hsub (hhead Z hZ)
        refine List.pairwise_cons.mpr ⟨?_, List.pairwise_cons.mpr ⟨?_, ih _ htail⟩⟩
        · intro B' hB'
          rcases List.mem_cons.mp hB' with rfl | hB'
          · exact parts_disj X Y
          · exact hrest B' hB' Finset.inter_subset_right
        · intro B' hB'
          exact hrest B' hB' Finset.sdiff_subset

/-- The length bookkeeping of a splitting pass: the queue grows exactly as
much as the partition. -/
theorem applySplitter_len (X : Finset Nat) :
    ∀ (P Q : List (Finset Nat)),
      (applySplitter X Q P).1.length + P.length =
        Q.length + (applySplitter X Q P).2.length := by
  intro P
  induction P with
  | nil =>
      intro Q
      simp [applySplitter]
  | cons Y rest ih =>
      intro Q
      by_cases hc : X ∩ Y = ∅ ∨ Y \ X = ∅
      · rw [applySplitter_cons_keep X Y Q rest hc]
        have := ih Q
        simp only [List.length_cons]
        omega
      · rw [applySplitter_cons_split X Y Q rest hc]
        have h1 := ih (splitQueue X Y Q)
        have h2 := splitQueue_length X Y Q
        simp only [List.length_cons]
        omega

/-- A splitting pass never shrinks the partition. -/
theorem applySplitter_plen (X : Finset Nat) :
    ∀ (P Q : List (Finset Nat)),
      P.length ≤ (applySplitter X Q P).2.length := by
  intro P
  induction P with
  | nil =>
      intro Q
      simp [applySplitter]
  | cons Y rest ih =>
      intro Q
      by_cases hc : X ∩ Y = ∅ ∨ Y \ X = ∅
      · rw [applySplitter_cons_keep X Y Q rest hc]
        have := ih Q
        simp only [List.length_cons]
        omega
      · rw [applySplitter_cons_split X Y Q rest hc]
        have := ih (splitQueue X Y Q)
        simp only [List.length_cons]
        omega

/-- Every entry of the result queue is an old entry or a result block. -/
theorem applySplitter_queue_mem (X : Finset Nat) :
    ∀ (P Q : List (Finset Nat)), ∀ T ∈ (applySplitter X Q P).1,
      T ∈ Q ∨ T ∈ (applySplitter X Q P).2 := by
  intro P
  induction P with
  | nil =>
      intro Q T hT
      exact Or.inl hT
  | cons Y rest ih =>
      intro Q T hT
      by_cases hc : X ∩ Y = ∅ ∨ Y \ X = ∅
      · rw [applySplitter_cons_keep X Y Q rest hc] at hT ⊢
        rcases ih Q T hT with h | h
        · exact Or.inl h
        · exact Or.inr (List.mem_cons_of_mem _ h)
      · rw [applySplitter_cons_split X Y Q rest hc] at hT ⊢
        rcases ih (splitQueue X Y Q) T hT with h | h
        · rcases splitQueue_mem T h with h' | h' | h'
          · exact Or.inl h'
          · exact Or.inr (h' ▸ List.mem_cons_self _ _)
          · exact Or.inr (List.mem_cons_of_mem _ (h' ▸ List.mem_cons_self _ _))
        · exact Or.inr (List.mem_cons_of_mem _ (List.mem_cons_of_mem _ h))

/-- Derivability bookkeeping of a splitting pass. -/
theorem applySplitter_deriv (X : Finset Nat) :
    ∀ (P Q E : List (Finset Nat)),
      (∀ B ∈ P, Derivable (E ++ Q) B) →
      (∀ W, Derivable (E ++ Q) W →
        Derivable (E ++ (applySplitter X Q P).1) W) ∧
      ∀ B' ∈ (applySplitter X Q P).2,
        Derivable (E ++ (applySplitter X Q P).1) B' := by
  intro P
  induction P with
  | nil =>
      intro Q E _
      exact ⟨fun W hW => hW, by simp [applySplitter]⟩
  | cons Y rest ih =>
      intro Q E hP
      by_cases hc : X ∩ Y = ∅ ∨ Y \ X = ∅
      · rw [applySplitter_cons_keep X Y Q rest hc]
        rcases ih Q E (fun B hB => hP B (List.mem_cons_of_mem _ hB))
          with ⟨hmono, hblocks⟩
        refine ⟨hmono, ?_⟩
        intro B' hB'
        rcases List.mem_cons.mp hB' with rfl | hB'
        · exact hmono B' (hP B' (List.mem_cons_self _ _))
        · exact hblocks B' hB'
      · rw [applySplitter_cons_split X Y Q rest hc]
        rcases splitQueue_derivable E Q X Y (hP Y (List.mem_cons_self _ _))
          with ⟨hm0, hint, hdiff⟩
        rcases ih (splitQueue X Y Q) E
          (fun B hB => hm0 B (hP B (List.mem_cons_of_mem _ hB)))
          with ⟨hmono, hblocks⟩
        refine ⟨fun W hW => hmono W (hm0 W hW), ?_⟩
        intro B' hB'
        rcases List.mem_cons.mp hB' with rfl | hB'
        · exact hmono _ hint
        · rcases List.mem_cons.mp hB' with rfl | hB'
          · exact hmono _ hdiff
          · exact hblocks B' hB'

/-- A splitting pass with a well-behaved group is a refinement step. -/
theorem applySplitter_step (n : Nat) (R base : Nat → Nat → Prop)
    (hsym : ∀ x y, R x y → R y x)
    (X : Finset Nat) (hXR : RClosed n R X)
    (Q P : List (Finset Nat)) :
    SplitStep n R base (Q, P) (applySplitter X Q P) := by
  refine ⟨applySplitter_len X P Q, applySplitter_plen X P Q,
    applySplitter_refines X P Q, ?_,
    fun E hP => applySplitter_deriv X P Q E hP⟩
  intro hinv
  have hsubP' : ∀ B' ∈ (applySplitter X Q P).2, B' ⊆ Finset.range n := by
    intro B' hB'
    rcases applySplitter_refines X P Q B' hB' with ⟨B, hB, hsub⟩
    exact hsub.trans (hinv.subsetP B hB)
  have hrcloP' : ∀ B' ∈ (applySplitter X Q P).2, RClosed n R B' := by
    intro B' hB'
    rcases applySplitter_blocks X P Q B' hB' with ⟨h1, -⟩ | ⟨Y, hY, -, h2⟩
    · exact hinv.rcloP B' h1
    · rcases h2 with rfl | rfl
      · exact rclosed_inter hXR (hinv.rcloP Y hY)
      · exact rclosed_sdiff hsym (hinv.rcloP Y hY) hXR (hinv.subsetP Y hY)
  refine ⟨?_, hsubP', applySplitter_disj X P Q hinv.disj, ?_, ?_, hrcloP',
    ?_, ?_⟩
  · intro x hx
    exact (applySplitter_union_iff X P Q x).mpr (hinv.cover x hx)
  · intro B' hB'
    rcases applySplitter_blocks X P Q B' hB' with ⟨h1, -⟩ | ⟨Y, hY, hne, h2⟩
    · exact hinv.blocksNonempty B' h1
    · rw [not_or] at hne
      rcases h2 with rfl | rfl
      · exact Finset.nonempty_iff_ne_empty.mpr hne.1
      · exact Finset.nonempty_iff_ne_empty.mpr hne.2
  · intro S hS
    rcases applySplitter_queue_mem X P Q S hS with h | h
    · exact hinv.subsetQ S h
    · exact hsubP' S h
  · intro S hS
    rcases applySplitter_queue_mem X P Q S hS with h | h
    · exact hinv.rcloQ S h
    · exact hrcloP' S h
  · intro B' hB' x hx y hy
    rcases applySplitter_refines X P Q B' hB' with ⟨B, hB, hsub⟩
    exact hinv.baseP B hB x (hsub hx) y (hsub hy)

/-- The identity refinement step. -/
theorem splitStep_refl (n : Nat) (R base : Nat → Nat → Prop)
    (QP : List (Finset Nat) × List (Finset Nat)) :
    SplitStep n R base QP QP :=
  ⟨by omega, le_refl _, fun B hB => ⟨B, hB, subset_rfl⟩, id,
    fun _ hP => ⟨fun _ hW => hW, hP⟩⟩

/-- Refinement steps compose. -/
theorem splitStep_trans {n : Nat} {R base : Nat → Nat → Prop}
    {QP1 QP2 QP3 : List (Finset Nat) × List (Finset Nat)}
    (h1 : SplitStep n R base QP1 QP2) (h2 : SplitStep n R base QP2 QP3) :
    SplitStep n R base QP1 QP3 := by
  refine ⟨?_, le_trans h1.plen h2.plen, ?_, fun hinv => h2.part (h1.part hinv),
    ?_⟩
  · have e1 := h1.len
    have e2 := h2.len
    omega
  · intro B'' hB''
    rcases h2.refines B'' hB'' with ⟨B', hB', hs1⟩
    rcases h1.refines B' hB' with ⟨B, hB, hs2⟩
    exact ⟨B, hB, hs1.trans hs2⟩
  · intro E hP
    rcases h1.deriv E hP with ⟨hm1, hb1⟩
    rcases h2.deriv E hb1 with ⟨hm2, hb2⟩
    exact ⟨fun W hW => hm2 W (hm1 W hW), hb2⟩

/-- Folding refinement steps over a list is a refinement step. -/
theorem foldl_splitStep {α : Type} (n : Nat) (R base : Nat → Nat → Prop)
    (F : α → List (Finset Nat) × List (Finset Nat) →
      List (Finset Nat) × List (Finset Nat)) :
    ∀ (l : List α),
      (∀ x ∈ l, ∀ QP, SplitStep n R base QP (F x QP)) →
      ∀ QP, SplitStep n R base QP (l.foldl (fun QP x => F x QP) QP) := by
  intro l
  induction l with
  | nil =>
      intro _ QP
      exact splitStep_refl n R base QP
  | cons y ys ih =>
      intro hF QP
      have h1 := hF y (List.mem_cons_self _ _) QP
      have h2 := ih (fun x hx => hF x (List.mem_cons_of_mem _ hx)) (F y QP)
      exact splitStep_trans h1 h2

/-- A per-element postcondition established by each step and preserved
under refinement survives the whole fold. -/
theorem foldl_post {α : Type} (n : Nat) (R base : Nat → Nat → Prop)
    (F : α → List (Finset Nat) × List (Finset Nat) →
      List (Finset Nat) × List (Finset Nat))
    (POST : α → List (Finset Nat) → Prop) :
    ∀ (l : List α),
      (∀ x ∈ l, ∀ QP, SplitStep n R base QP (F x QP)) →
      (∀ x ∈ l, ∀ QP, POST x (F x QP).2) →
      (∀ (x : α) (P P' : List (Finset Nat)),
        (∀ B' ∈ P', ∃ B ∈ P, B' ⊆ B) → POST x P → POST x P') →
      ∀ QP, ∀ x ∈ l, POST x ((l.foldl (fun QP x => F x QP) QP)).2 := by
  intro l
  induction l with
  | nil =>
      intro _ _ _ QP x hx
      cases hx
  | cons y ys ih =>
      intro hF hpost hmono QP x hx
      have hstep := foldl_splitStep n R base F ys
        (fun x hx => hF x (List.mem_cons_of_mem _ hx)) (F y QP)
      rcases List.mem_cons.mp hx with rfl | hx
      · exact hmono x (F x QP).2 _ hstep.refines
          (hpost x (List.mem_cons_self _ _) QP)
      · exact ih (fun z hz => hF z (List.mem_cons_of_mem _ hz))
          (fun z hz => hpost z (List.mem_cons_of_mem _ hz)) hmono (F y QP) x hx

/-- Mealy bisimilarity is reflexive. -/
theorem mealyEquiv_refl (M : MealyE) (p : Nat) : MealyEquiv M p p :=
  fun _ _ _ => rfl

/-- Mealy bisimilarity is symmetric. -/
theorem mealyEquiv_symm {M : MealyE} {p q : Nat} (h : MealyEquiv M p q) :
    MealyEquiv M q p :=
  fun w hw hs => (h w hw hs).symm

/-- Mealy bisimilarity is transitive. -/
theorem mealyEquiv_trans {M : MealyE} {p q r : Nat} (h1 : MealyEquiv M p q)
    (h2 : MealyEquiv M q r) : MealyEquiv M p r :=
  fun w hw hs => (h1 w hw hs).trans (h2 w hw hs)

/-- One-step decomposition of Mealy bisimilarity: on every alphabet symbol
the two states either both lack an edge, or step with the same color to
bisimilar targets. -/
theorem mealyEquiv_step {M : MealyE} {p q : Nat} (h : MealyEquiv M p q)
    {a : Nat} (ha : a < M.k) :
    (M.edge p a = none ∧ M.edge q a = none) ∨
    ∃ t t' c, M.edge p a = some (t, c) ∧ M.edge q a = some (t', c) ∧
      MealyEquiv M t t' := by
  have hsing : ∀ x ∈ [a], x < M.k := by
    intro x hx
    rw [List.mem_singleton] at hx
    exact hx ▸ ha
  have h1 := h [a] (by simp) hsing
  cases hep : M.edge p a with
  | none =>
      cases heq : M.edge q a with
      | none => exact Or.inl ⟨rfl, rfl⟩
      | some tc' =>
          simp [colorTrace, hep, heq] at h1
  | some tc =>
      cases heq : M.edge q a with
      | none => simp [colorTrace, hep, heq] at h1
      | some tc' =>
          have hcol : tc.2 = tc'.2 := by
            simp [colorTrace, hep, heq] at h1
            exact h1
          refine Or.inr ⟨tc.1, tc'.1, tc.2, rfl, ?_, ?_⟩
          · rw [hcol]
          · intro w hw hs
            have h2 := h (a :: w) (by simp)
              (by
                intro x hx
                rcases List.mem_cons.mp hx with rfl | hx
                · exact ha
                · exact hs x hx)
            simp only [colorTrace, hep, heq, Option.some_bind] at h2
            cases hct : colorTrace M tc.1 w with
            | none =>
                cases hct' : colorTrace M tc'.1 w with
                | none => rfl
                | some cs' => rw [hct, hct'] at h2; simp at h2
            | some cs =>
                cases hct' : colorTrace M tc'.1 w with
                | none => rw [hct, hct'] at h2; simp at h2
                | some cs' =>
                    rw [hct, hct'] at h2
                    simp only [Option.map_some', Option.some.injEq,
                      List.cons.injEq] at h2
                    rw [h2.2]

/-- Mealy splitter groups of bisimulation-closed backing sets are
bisimulation-closed. -/
theorem mealyGrp_rclosed {M : MealyE} (hM : M.Closed) {S : Finset Nat}
    (hS : RClosed M.n (MealyEquiv M) S) {a : Nat} (ha : a < M.k) (c : Nat) :
    RClosed M.n (MealyEquiv M) (mealyGrp M S a c) := by
  intro x hx y hy hxy
  rcases mem_mealyGrp.mp hx with ⟨hxn, t, he, ht⟩
  rcases mealyEquiv_step hxy ha with ⟨h1, -⟩ | ⟨t1, t', c', he1, he2, hteq⟩
  · rw [he] at h1
    cases h1
  · have hee := he1.symm.trans he
    injection hee with hee
    cases hee
    refine mem_mealyGrp.mpr ⟨hy, t', he2, ?_⟩
    have ht'n : t' < M.n := hM y hy a ha (t', c) (by rw [Option.mem_def, he2])
    exact hS t ht t' ht'n hteq

/-- Moore bisimilarity is reflexive. -/
theorem mooreEquiv_refl (M : MooreE) (p : Nat) : MooreEquiv M p p :=
  fun _ _ => rfl

/-- Moore bisimilarity is symmetric. -/
theorem mooreEquiv_symm {M : MooreE} {p q : Nat} (h : MooreEquiv M p q) :
    MooreEquiv M q p :=
  fun w hs => (h w hs).symm

/-- Moore bisimilarity is transitive. -/
theorem mooreEquiv_trans {M : MooreE} {p q r : Nat} (h1 : MooreEquiv M p q)
    (h2 : MooreEquiv M q r) : MooreEquiv M p r :=
  fun w hs => (h1 w hs).trans (h2 w hs)

/-- Moore-bisimilar states agree on their own color (the empty word). -/
theorem mooreEquiv_col {M : MooreE} {p q : Nat} (h : MooreEquiv M p q) :
    M.col p = M.col q := by
  have h1 := h [] (by simp)
  simp only [mooreRun, Option.map_some'] at h1
  exact Option.some.inj h1

/-- One-step decomposition of Moore bisimilarity. -/
theorem mooreEquiv_step {M : MooreE} {p q : Nat} (h : MooreEquiv M p q)
    {a : Nat} (ha : a < M.k) :
    (M.edge p a = none ∧ M.edge q a = none) ∨
    ∃ t t', M.edge p a = some t ∧ M.edge q a = some t' ∧
      MooreEquiv M t t' := by
  have hsing : ∀ x ∈ [a], x < M.k := by
    intro x hx
    rw [List.mem_singleton] at hx
    exact hx ▸ ha
  have h1 := h [a] hsing
  cases hep : M.edge p a with
  | none =>
      cases heq : M.edge q a with
      | none => exact Or.inl ⟨rfl, rfl⟩
      | some t' => simp [mooreRun, hep, heq] at h1
  | some t =>
      cases heq : M.edge q a with
      | none => simp [mooreRun, hep, heq] at h1
      | some t' =>
          refine Or.inr ⟨t, t', rfl, rfl, ?_⟩
          intro w hs
          have h2 := h (a :: w)
            (by
              intro x hx
              rcases List.mem_cons.mp hx with rfl | hx
              · exact ha
              · exact hs x hx)
          simpa only [mooreRun, hep, heq, Option.some_bind] using h2

/-- Moore splitter sets of bisimulation-closed backing sets are
bisimulation-closed. -/
theorem mooreGrp_rclosed {M : MooreE} (hM : M.Closed) {S : Finset Nat}
    (hS : RClosed M.n (MooreEquiv M) S) {a : Nat} (ha : a < M.k) :
    RClosed M.n (MooreEquiv M) (mooreGrp M S a) := by
  intro x hx y hy hxy
  rcases mem_mooreGrp.mp hx with ⟨hxn, t, he, ht⟩
  rcases mooreEquiv_step hxy ha with ⟨h1, -⟩ | ⟨t1, t', he1, he2, hteq⟩
  · rw [he] at h1
    cases h1
  · have hee := he1.symm.trans he
    injection hee with hee
    cases hee
    refine mem_mooreGrp.mpr ⟨hy, t', he2, ?_⟩
    have ht'n : t' < M.n := hM y hy a ha t' (by rw [Option.mem_def, he2])
    exact hS t ht t' ht'n hteq

/-- Processing one Mealy symbol is a refinement step. -/
theorem mealyProcessSymbol_step (M : MealyE) (hM : M.Closed)
    (base : Nat → Nat → Prop) {S : Finset Nat}
    (hS : RClosed M.n (MealyEquiv M) S) {a : Nat} (ha : a < M.k)
    (QP : List (Finset Nat) × List (Finset Nat)) :
    SplitStep M.n (MealyEquiv M) base QP (mealyProcessSymbol M S a QP) := by
  rw [mealyProcessSymbol]
  exact foldl_splitStep M.n (MealyEquiv M) base
    (fun c QP => applySplitter (mealyGrp M S a c) QP.1 QP.2)
    ((mealyColorsInto M S a).sort (· ≤ ·))
    (fun c _ QP => applySplitter_step M.n (MealyEquiv M) base
      (fun _ _ h => mealyEquiv_symm h) (mealyGrp M S a c)
      (mealyGrp_rclosed hM hS ha c) QP.1 QP.2) QP

/-- Processing a popped Mealy set is a refinement step. -/
theorem mealyProcessSet_step (M : MealyE) (hM : M.Closed)
    (base : Nat → Nat → Prop) {S : Finset Nat}
    (hS : RClosed M.n (MealyEquiv M) S)
    (QP : List (Finset Nat) × List (Finset Nat)) :
    SplitStep M.n (MealyEquiv M) base QP (mealyProcessSet M S QP) := by
  rw [mealyProcessSet]
  exact foldl_splitStep M.n (MealyEquiv M) base
    (fun a QP => mealyProcessSymbol M S a QP) (List.range M.k)
    (fun a hak QP => mealyProcessSymbol_step M hM base hS
      (List.mem_range.mp hak) QP) QP

/-- After processing one Mealy symbol, every block is stable for every
color group of that symbol. -/
theorem mealyProcessSymbol_stab (M : MealyE) (hM : M.Closed)
    (base : Nat → Nat → Prop) {S : Finset Nat}
    (hS : RClosed M.n (MealyEquiv M) S) {a : Nat} (ha : a < M.k)
    (QP : List (Finset Nat) × List (Finset Nat)) :
    ∀ c, ∀ Z ∈ (mealyProcessSymbol M S a QP).2, StabFor Z (mealyGrp M S a c) := by
  intro c Z hZ
  by_cases hcmem : c ∈ mealyColorsInto M S a
  · have := foldl_post M.n (MealyEquiv M) base
      (fun c QP => applySplitter (mealyGrp M S a c) QP.1 QP.2)
      (fun c P => ∀ Z ∈ P, StabFor Z (mealyGrp M S a c))
      ((mealyColorsInto M S a).sort (· ≤ ·))
      (fun c _ QP => applySplitter_step M.n (MealyEquiv M) base
        (fun _ _ h => mealyEquiv_symm h) (mealyGrp M S a c)
        (mealyGrp_rclosed hM hS ha c) QP.1 QP.2)
      (fun c _ QP => applySplitter_stab (mealyGrp M S a c) QP.2 QP.1)
      (fun c P P' href hpost Z' hZ' => by
        rcases href Z' hZ' with ⟨Z, hZ, hsub⟩
        exact stabFor_subset hsub (hpost Z hZ))
      QP c ((Finset.mem_sort (· ≤ ·)).mpr hcmem)
    exact this Z hZ
  · rw [mealyGrp_empty_of_not_colorsInto hcmem]
    exact Or.inr (Finset.inter_empty Z)

/-- After processing a popped Mealy set, it is a stable backing set. -/
theorem mealyProcessSet_stab (M : MealyE) (hM : M.Closed)
    (base : Nat → Nat → Prop) {S : Finset Nat}
    (hS : RClosed M.n (MealyEquiv M) S)
    (QP : List (Finset Nat) × List (Finset Nat)) :
    StabAll (mealyGset M) (mealyProcessSet M S QP).2 S := by
  rintro g ⟨a, ha, c, rfl⟩ Z hZ
  have := foldl_post M.n (MealyEquiv M) base
    (fun a QP => mealyProcessSymbol M S a QP)
    (fun a P => ∀ c, ∀ Z ∈ P, StabFor Z (mealyGrp M S a c))
    (List.range M.k)
    (fun a hak QP => mealyProcessSymbol_step M hM base hS
      (List.mem_range.mp hak) QP)
    (fun a hak QP => mealyProcessSymbol_stab M hM base hS
      (List.mem_range.mp hak) QP)
    (fun a P P' href hpost c Z' hZ' => by
      rcases href Z' hZ' with ⟨Z, hZ, hsub⟩
      exact stabFor_subset hsub (hpost c Z hZ))
    QP a (List.mem_range.mpr ha)
  exact this c Z hZ

/-- Processing a popped Moore set is a refinement step. -/
theorem mooreProcessSet_step (M : MooreE) (hM : M.Closed)
    (base : Nat → Nat → Prop) {S : Finset Nat}
    (hS : RClosed M.n (MooreEquiv M) S)
    (QP : List (Finset Nat) × List (Finset Nat)) :
    SplitStep M.n (MooreEquiv M) base QP (mooreProcessSet M S QP) := by
  rw [mooreProcessSet]
  exact foldl_splitStep M.n (MooreEquiv M) base
    (fun a QP => applySplitter (mooreGrp M S a) QP.1 QP.2) (List.range M.k)
    (fun a hak QP => applySplitter_step M.n (MooreEquiv M) base
      (fun _ _ h => mooreEquiv_symm h) (mooreGrp M S a)
      (mooreGrp_rclosed hM hS (List.mem_range.mp hak)) QP.1 QP.2) QP

/-- After processing a popped Moore set, it is a stable backing set. -/
theorem mooreProcessSet_stab (M : MooreE) (hM : M.Closed)
    (base : Nat → Nat → Prop) {S : Finset Nat}
    (hS : RClosed M.n (MooreEquiv M) S)
    (QP : List (Finset Nat) × List (Finset Nat)) :
    StabAll (mooreGset M) (mooreProcessSet M S QP).2 S := by
  rintro g ⟨a, ha, rfl⟩ Z hZ
  have := foldl_post M.n (MooreEquiv M) base
    (fun a QP => applySplitter (mooreGrp M S a) QP.1 QP.2)
    (fun a P => ∀ Z ∈ P, StabFor Z (mooreGrp M S a))
    (List.range M.k)
    (fun a hak QP => applySplitter_step M.n (MooreEquiv M) base
      (fun _ _ h => mooreEquiv_symm h) (mooreGrp M S a)
      (mooreGrp_rclosed hM hS (List.mem_range.mp hak)) QP.1 QP.2)
    (fun a _ QP => applySplitter_stab (mooreGrp M S a) QP.2 QP.1)
    (fun a P P' href hpost Z' hZ' => by
      rcases href Z' hZ' with ⟨Z, hZ, hsub⟩
      exact stabFor_subset hsub (hpost Z hZ))
    QP a (List.mem_range.mpr ha)
  exact this Z hZ

/-- Stability of a backing set descends along partition refinement. -/
theorem stabAll_refines {gset : Set (Finset Nat → Finset Nat)}
    {P P' : List (Finset Nat)} {S : Finset Nat}
    (href : ∀ B' ∈ P', ∃ B ∈ P, B' ⊆ B) (h : StabAll gset P S) :
    StabAll gset P' S := by
  intro g hg Z' hZ'
  rcases href Z' hZ' with ⟨Z, hZ, hsub⟩
  exact stabFor_subset hsub (h g hg Z hZ)

/-- A list of pairwise disjoint non-empty subsets of `U` has at most
`U.card` entries. -/
theorem partition_length_le_card :
    ∀ (P : List (Finset Nat)) (U : Finset Nat),
      P.Pairwise (fun A B => A ∩ B = ∅) → (∀ B ∈ P, B.Nonempty) →
      (∀ B ∈ P, B ⊆ U) → P.length ≤ U.card := by
  intro P
  induction P with
  | nil => simp
  | cons B rest ih =>
      intro U hpw hne hsub
      rcases List.pairwise_cons.mp hpw with ⟨hhead, htail⟩
      have hBU : B ⊆ U := hsub B (List.mem_cons_self _ _)
      have hrest : ∀ C ∈ rest, C ⊆ U \ B := by
        intro C hC x hx
        rw [Finset.mem_sdiff]
        refine ⟨hsub C (List.mem_cons_of_mem _ hC) hx, fun hxB => ?_⟩
        exact Finset.eq_empty_iff_forall_not_mem.mp (hhead C hC) x
          (Finset.mem_inter.mpr ⟨hxB, hx⟩)
      have hrec := ih (U \ B) htail
        (fun C hC => hne C (List.mem_cons_of_mem _ hC)) hrest
      have hcard : (U \ B).card = U.card - B.card := Finset.card_sdiff hBU
      have hBpos : 0 < B.card :=
        Finset.card_pos.mpr (hne B (List.mem_cons_self _ _))
      have hBle : B.card ≤ U.card := Finset.card_le_card hBU
      simp only [List.length_cons]
      omega

/-- Unfolding the worklist loop on a non-empty queue. -/
theorem refineLoop_succ
    (process : Finset Nat → List (Finset Nat) × List (Finset Nat) →
      List (Finset Nat) × List (Finset Nat))
    (ch : List (Finset Nat) → List (Finset Nat) → Nat)
    (fuel : Nat) (Q P : List (Finset Nat)) (h : Q ≠ []) :
    refineLoop process ch (fuel + 1) (Q, P) =
      refineLoop process ch fuel
        (process (Q.getD (ch Q P % Q.length) ∅)
          (Q.eraseIdx (ch Q P % Q.length), P)) := by
  cases Q with
  | nil => exact absurd rfl h
  | cons T rest => rfl

/-- Invariant preservation and guaranteed queue exhaustion of the worklist
loop, for any processing routine that is a refinement step and stabilizes
the popped set. -/
theorem refineLoop_spec (n : Nat) (gset : Set (Finset Nat → Finset Nat))
    (R base : Nat → Nat → Prop)
    (process : Finset Nat → List (Finset Nat) × List (Finset Nat) →
      List (Finset Nat) × List (Finset Nat))
    (ch : List (Finset Nat) → List (Finset Nat) → Nat)
    (hstep : ∀ S QP, S ⊆ Finset.range n → RClosed n R S →
      SplitStep n R base QP (process S QP))
    (hstab : ∀ S QP, S ⊆ Finset.range n → RClosed n R S →
      StabAll gset (process S QP).2 S) :
    ∀ (fuel : Nat) (Q P : List (Finset Nat)),
      RefInv n gset R base Q P →
      RefInv n gset R base (refineLoop process ch fuel (Q, P)).1
          (refineLoop process ch fuel (Q, P)).2 ∧
        (2 * (n + 1) - 2 * P.length + Q.length < fuel →
          (refineLoop process ch fuel (Q, P)).1 = []) := by
  intro fuel
  induction fuel with
  | zero =>
      intro Q P hinv
      exact ⟨hinv, by omega⟩
  | succ fuel ih =>
      intro Q P hinv
      by_cases hQe : Q = []
      · subst hQe
        exact ⟨hinv, fun _ => rfl⟩
      · have hlen : 0 < Q.length := List.length_pos.mpr hQe
        have hilt : ch Q P % Q.length < Q.length := Nat.mod_lt _ hlen
        have hSget : Q.getD (ch Q P % Q.length) ∅ = Q.get ⟨_, hilt⟩ := by
          rw [List.getD_eq_getElem _ _ hilt]
          rfl
        have hSmem : Q.getD (ch Q P % Q.length) ∅ ∈ Q := by
          rw [hSget]
          exact List.get_mem Q _ hilt
        have hSsub : Q.getD (ch Q P % Q.length) ∅ ⊆ Finset.range n :=
          hinv.part.subsetQ _ hSmem
        have hSR : RClosed n R (Q.getD (ch Q P % Q.length) ∅) :=
          hinv.part.rcloQ _ hSmem
        have heraseMem : ∀ U ∈ Q.eraseIdx (ch Q P % Q.length), U ∈ Q := by
          intro U hU
          rcases List.mem_eraseIdx_iff_getElem?.mp hU with ⟨j, -, hj⟩
          exact List.getElem?_mem hj
        have hpart0 : PartInv n R base (Q.eraseIdx (ch Q P % Q.length)) P :=
          { cover := hinv.part.cover
            subsetP := hinv.part.subsetP
            disj := hinv.part.disj
            blocksNonempty := hinv.part.blocksNonempty
            subsetQ := fun U hU => hinv.part.subsetQ U (heraseMem U hU)
            rcloP := hinv.part.rcloP
            rcloQ := fun U hU => hinv.part.rcloQ U (heraseMem U hU)
            baseP := hinv.part.baseP }
        have step := hstep (Q.getD (ch Q P % Q.length) ∅)
          (Q.eraseIdx (ch Q P % Q.length), P) hSsub hSR
        rcases hinv.span with ⟨F, hFstab, hFder⟩
        have htransport : ∀ B ∈ P,
            Derivable ((F ++ [Q.getD (ch Q P % Q.length) ∅]) ++
              Q.eraseIdx (ch Q P % Q.length)) B := by
          intro B hB
          refine derivable_trans ?_ (hFder B hB)
          intro U hU
          rcases List.mem_append.mp hU with h | h
          · exact Derivable.mem _ (by simp [h])
          · rcases mem_eraseIdx_or_eq hilt U h with h' | h'
            · exact Derivable.mem _ (by simp [h'])
            · refine Derivable.mem _ ?_
              rw [h', ← hSget]
              simp
        rcases step.deriv (F ++ [Q.getD (ch Q P % Q.length) ∅]) htransport
          with ⟨-, hblocks⟩
        have hstabF : ∀ U ∈ F ++ [Q.getD (ch Q P % Q.length) ∅],
            StabAll gset
              (process (Q.getD (ch Q P % Q.length) ∅)
                (Q.eraseIdx (ch Q P % Q.length), P)).2 U := by
          intro U hU
          rcases List.mem_append.mp hU with h | h
          · exact stabAll_refines step.refines (hFstab U h)
          · rw [List.mem_singleton] at h
            subst h
            exact hstab _ (Q.eraseIdx (ch Q P % Q.length), P) hSsub hSR
        have hinv' : RefInv n gset R base
            (process (Q.getD (ch Q P % Q.length) ∅)
              (Q.eraseIdx (ch Q P % Q.length), P)).1
            (process (Q.getD (ch Q P % Q.length) ∅)
              (Q.eraseIdx (ch Q P % Q.length), P)).2 :=
          { part := step.part hpart0
            span := ⟨F ++ [Q.getD (ch Q P % Q.length) ∅], hstabF, hblocks⟩ }
        have hres := ih _ _ hinv'
        rw [refineLoop_succ process ch fuel Q P hQe]
        refine ⟨?_, ?_⟩
        · have h1 := hres.1
          have he : ((process (Q.getD (ch Q P % Q.length) ∅)
              (Q.eraseIdx (ch Q P % Q.length), P)).1,
              (process (Q.getD (ch Q P % Q.length) ∅)
                (Q.eraseIdx (ch Q P % Q.length), P)).2) =
              process (Q.getD (ch Q P % Q.length) ∅)
                (Q.eraseIdx (ch Q P % Q.length), P) := rfl
          rw [he] at h1
          exact h1
        · intro hμ
          have h2 := hres.2
          have he : ((process (Q.getD (ch Q P % Q.length) ∅)
              (Q.eraseIdx (ch Q P % Q.length), P)).1,
              (process (Q.getD (ch Q P % Q.length) ∅)
                (Q.eraseIdx (ch Q P % Q.length), P)).2) =
              process (Q.getD (ch Q P % Q.length) ∅)
                (Q.eraseIdx (ch Q P % Q.length), P) := rfl
          rw [he] at h2
          apply h2
          have hlen1 : (process (Q.getD (ch Q P % Q.length) ∅)
              (Q.eraseIdx (ch Q P % Q.length), P)).1.length + P.length =
              (Q.eraseIdx (ch Q P % Q.length)).length +
                (process (Q.getD (ch Q P % Q.length) ∅)
                  (Q.eraseIdx (ch Q P % Q.length), P)).2.length := step.len
          have hplen : P.length ≤ (process (Q.getD (ch Q P % Q.length) ∅)
              (Q.eraseIdx (ch Q P % Q.length), P)).2.length := step.plen
          have herase : (Q.eraseIdx (ch Q P % Q.length)).length =
              Q.length - 1 := List.length_eraseIdx_of_lt hilt
          have hPbound : (process (Q.getD (ch Q P % Q.length) ∅)
              (Q.eraseIdx (ch Q P % Q.length), P)).2.length ≤ n := by
            have hpart' := step.part hpart0
            have hb := partition_length_le_card _ (Finset.range n)
              hpart'.disj hpart'.blocksNonempty hpart'.subsetP
            simpa using hb
          rw [herase] at hlen1
          omega

/-- At queue exhaustion every partition block is a stable backing set. -/
theorem refinv_final_stab (n : Nat) (gset : Set (Finset Nat → Finset Nat))
    (R base : Nat → Nat → Prop) {P : List (Finset Nat)}
    (inv : RefInv n gset R base [] P)
    (hgset : ∀ g ∈ gset, (∀ S T : Finset Nat, S ∩ T = ∅ →
        g (S ∪ T) = g S ∪ g T) ∧
      ∀ S T : Finset Nat, T ⊆ S → g (S \ T) = g S \ g T) :
    ∀ B ∈ P, StabAll gset P B := by
  rcases inv.span with ⟨F, hFstab, hder⟩
  intro B hB g hg Z hZ
  have hd := hder B hB
  rw [List.append_nil] at hd
  exact derivable_stabFor g (hgset g hg).1 (hgset g hg).2 Z F
    (fun T hT => hFstab T hT g hg Z hZ) B hd

/-- In a stable partition of a Mealy automaton, states in the same block
produce the same color sequence on every word over the alphabet. -/
theorem mealy_stable_trace (M : MealyE) (hM : M.Closed)
    {P : List (Finset Nat)}
    (hsub : ∀ B ∈ P, B ⊆ Finset.range M.n)
    (hcover : ∀ x < M.n, ∃ B ∈ P, x ∈ B)
    (hstab : ∀ B ∈ P, StabAll (mealyGset M) P B) :
    ∀ (w : List Nat), (∀ x ∈ w, x < M.k) →
      ∀ B ∈ P, ∀ p ∈ B, ∀ q ∈ B, colorTrace M p w = colorTrace M q w := by
  intro w
  induction w with
  | nil =>
      intro _ B _ p _ q _
      rfl
  | cons a w' ih =>
      intro hsyms B hB p hp q hq
      have ha : a < M.k := hsyms a (List.mem_cons_self _ _)
      have hw' : ∀ x ∈ w', x < M.k :=
        fun x hx => hsyms x (List.mem_cons_of_mem _ hx)
      have hpn : p < M.n := Finset.mem_range.mp (hsub B hB hp)
      have hqn : q < M.n := Finset.mem_range.mp (hsub B hB hq)
      cases hep : M.edge p a with
      | some tc =>
          have htn : tc.1 < M.n :=
            hM p hpn a ha tc (by rw [Option.mem_def, hep])
          rcases hcover tc.1 htn with ⟨Bt, hBt, htB⟩
          have hpgrp : p ∈ mealyGrp M Bt a tc.2 :=
            mem_mealyGrp.mpr ⟨hpn, tc.1, by rw [hep], htB⟩
          have hstabB : StabFor B (mealyGrp M Bt a tc.2) :=
            hstab Bt hBt (fun S => mealyGrp M S a tc.2) ⟨a, ha, tc.2, rfl⟩ B hB
          rcases hstabB with hBsub | hBdisj
          · rcases mem_mealyGrp.mp (hBsub hq) with ⟨-, t', heq, ht'B⟩
            simp only [colorTrace, hep, heq, Option.some_bind]
            rw [ih hw' Bt hBt tc.1 htB t' ht'B]
          · exact absurd (Finset.mem_inter.mpr ⟨hp, hpgrp⟩)
              (Finset.eq_empty_iff_forall_not_mem.mp hBdisj p)
      | none =>
          cases heq : M.edge q a with
          | none => simp [colorTrace, hep, heq]
          | some tc' =>
              exfalso
              have ht'n : tc'.1 < M.n :=
                hM q hqn a ha tc' (by rw [Option.mem_def, heq])
              rcases hcover tc'.1 ht'n with ⟨Bt, hBt, htB⟩
              have hqgrp : q ∈ mealyGrp M Bt a tc'.2 :=
                mem_mealyGrp.mpr ⟨hqn, tc'.1, by rw [heq], htB⟩
              have hstabB : StabFor B (mealyGrp M Bt a tc'.2) :=
                hstab Bt hBt (fun S => mealyGrp M S a tc'.2)
                  ⟨a, ha, tc'.2, rfl⟩ B hB
              rcases hstabB with hBsub | hBdisj
              · rcases mem_mealyGrp.mp (hBsub hp) with ⟨-, t'', hep', -⟩
                rw [hep] at hep'
                cases hep'
              · exact Finset.eq_empty_iff_forall_not_mem.mp hBdisj q
                  (Finset.mem_inter.mpr ⟨hq, hqgrp⟩)

/-- Full characterization of any Mealy refiner run on a non-trivial
automaton: same final block means bisimilar, every block is the
bisimilarity class of one of its members, and every state lies in a
block. -/
theorem mealyRefine_spec (M : MealyE) (hM : M.Closed) (hn : 0 < M.n)
    (ch : List (Finset Nat) → List (Finset Nat) → Nat) :
    (∀ p, p < M.n → ∀ q, q < M.n →
      ((∃ B ∈ mealyRefine M ch, p ∈ B ∧ q ∈ B) ↔ MealyEquiv M p q)) ∧
    (∀ B ∈ mealyRefine M ch, ∃ p, p < M.n ∧
      ∀ x, x ∈ B ↔ (x < M.n ∧ MealyEquiv M p x)) ∧
    (∀ p, p < M.n → ∃ B ∈ mealyRefine M ch, p ∈ B) := by
  have hinv0 : RefInv M.n (mealyGset M) (MealyEquiv M) (fun _ _ => True)
      [Finset.range M.n] [Finset.range M.n] := by
    refine
      { part :=
        { cover := fun x hx =>
            ⟨Finset.range M.n, List.mem_singleton_self _,
              Finset.mem_range.mpr hx⟩
          subsetP := by
            intro B hB
            rw [List.mem_singleton] at hB
            subst hB
            exact subset_rfl
          disj := List.pairwise_singleton _ _
          blocksNonempty := by
            intro B hB
            rw [List.mem_singleton] at hB
            subst hB
            exact Finset.nonempty_range_iff.mpr (Nat.pos_iff_ne_zero.mp hn)
          subsetQ := by
            intro S hS
            rw [List.mem_singleton] at hS
            subst hS
            exact subset_rfl
          rcloP := by
            intro B hB
            rw [List.mem_singleton] at hB
            subst hB
            intro x _ y hy _
            exact Finset.mem_range.mpr hy
          rcloQ := by
            intro S hS
            rw [List.mem_singleton] at hS
            subst hS
            intro x _ y hy _
            exact Finset.mem_range.mpr hy
          baseP := fun _ _ _ _ _ _ => trivial }
        span := ⟨[], by simp, ?_⟩ }
    intro B hB
    rw [List.mem_singleton] at hB
    subst hB
    exact Derivable.mem _ (by simp)
  have hloop := refineLoop_spec M.n (mealyGset M) (MealyEquiv M)
    (fun _ _ => True) (mealyProcessSet M) ch
    (fun S QP _ hSR => mealyProcessSet_step M hM (fun _ _ => True) hSR QP)
    (fun S QP _ hSR => mealyProcessSet_stab M hM (fun _ _ => True) hSR QP)
    (2 * M.n + 2) [Finset.range M.n] [Finset.range M.n] hinv0
  have hQempty : (refineLoop (mealyProcessSet M) ch (2 * M.n + 2)
      ([Finset.range M.n], [Finset.range M.n])).1 = [] := by
    apply hloop.2
    simp only [List.length_singleton]
    omega
  have hinvF := hloop.1
  rw [hQempty] at hinvF
  have hstabF : ∀ B ∈ (refineLoop (mealyProcessSet M) ch (2 * M.n + 2)
        ([Finset.range M.n], [Finset.range M.n])).2,
      StabAll (mealyGset M)
        (refineLoop (mealyProcessSet M) ch (2 * M.n + 2)
          ([Finset.range M.n], [Finset.range M.n])).2 B := by
    refine refinv_final_stab M.n _ _ _ hinvF ?_
    rintro g ⟨a, ha, c, rfl⟩
    exact ⟨fun S T _ => mealyGrp_union M a c S T,
      fun S T _ => mealyGrp_sdiff M a c S T⟩
  have htrace := mealy_stable_trace M hM hinvF.part.subsetP
    hinvF.part.cover hstabF
  refine ⟨?_, ?_, ?_⟩
  · intro p hp q hq
    constructor
    · rintro ⟨B, hB, hpB, hqB⟩
      intro w _ hsyms
      exact htrace w hsyms B hB p hpB q hqB
    · intro hequiv
      rcases hinvF.part.cover p hp with ⟨B, hB, hpB⟩
      exact ⟨B, hB, hpB, hinvF.part.rcloP B hB p hpB q hq hequiv⟩
  · intro B hB
    rcases hinvF.part.blocksNonempty B hB with ⟨p, hpB⟩
    have hp : p < M.n := Finset.mem_range.mp (hinvF.part.subsetP B hB hpB)
    refine ⟨p, hp, ?_⟩
    intro x
    constructor
    · intro hxB
      have hx : x < M.n := Finset.mem_range.mp (hinvF.part.subsetP B hB hxB)
      exact ⟨hx, fun w _ hsyms => htrace w hsyms B hB p hpB x hxB⟩
    · rintro ⟨hx, he⟩
      exact hinvF.part.rcloP B hB p hpB x hx he
  · exact fun p hp => hinvF.part.cover p hp

/-- In a stable color-respecting partition of a Moore automaton, states in
the same block agree on the reached color along every word over the
alphabet. -/
theorem moore_stable_trace (M : MooreE) (hM : M.Closed)
    {P : List (Finset Nat)}
    (hsub : ∀ B ∈ P, B ⊆ Finset.range M.n)
    (hcover : ∀ x < M.n, ∃ B ∈ P, x ∈ B)
    (hstab : ∀ B ∈ P, StabAll (mooreGset M) P B)
    (hbase : ∀ B ∈ P, ∀ x ∈ B, ∀ y ∈ B, M.col x = M.col y) :
    ∀ (w : List Nat), (∀ x ∈ w, x < M.k) →
      ∀ B ∈ P, ∀ p ∈ B, ∀ q ∈ B,
        (mooreRun M p w).map M.col = (mooreRun M q w).map M.col := by
  intro w
  induction w with
  | nil =>
      intro _ B hB p hp q hq
      simp only [mooreRun, Option.map_some']
      rw [hbase B hB p hp q hq]
  | cons a w' ih =>
      intro hsyms B hB p hp q hq
      have ha : a < M.k := hsyms a (List.mem_cons_self _ _)
      have hw' : ∀ x ∈ w', x < M.k :=
        fun x hx => hsyms x (List.mem_cons_of_mem _ hx)
      have hpn : p < M.n := Finset.mem_range.mp (hsub B hB hp)
      have hqn : q < M.n := Finset.mem_range.mp (hsub B hB hq)
      cases hep : M.edge p a with
      | some t =>
          have htn : t < M.n := hM p hpn a ha t (by rw [Option.mem_def, hep])
          rcases hcover t htn with ⟨Bt, hBt, htB⟩
          have hpgrp : p ∈ mooreGrp M Bt a :=
            mem_mooreGrp.mpr ⟨hpn, t, hep, htB⟩
          have hstabB : StabFor B (mooreGrp M Bt a) :=
            hstab Bt hBt (fun S => mooreGrp M S a) ⟨a, ha, rfl⟩ B hB
          rcases hstabB with hBsub | hBdisj
          · rcases mem_mooreGrp.mp (hBsub hq) with ⟨-, t', heq, ht'B⟩
            simp only [mooreRun, hep, heq, Option.some_bind]
            exact ih hw' Bt hBt t htB t' ht'B
          · exact absurd (Finset.mem_inter.mpr ⟨hp, hpgrp⟩)
              (Finset.eq_empty_iff_forall_not_mem.mp hBdisj p)
      | none =>
          cases heq : M.edge q a with
          | none => simp [mooreRun, hep, heq]
          | some t' =>
              exfalso
              have ht'n : t' < M.n :=
                hM q hqn a ha t' (by rw [Option.mem_def, heq])
              rcases hcover t' ht'n with ⟨Bt, hBt, htB⟩
              have hqgrp : q ∈ mooreGrp M Bt a :=
                mem_mooreGrp.mpr ⟨hqn, t', heq, htB⟩
              have hstabB : StabFor B (mooreGrp M Bt a) :=
                hstab Bt hBt (fun S => mooreGrp M S a) ⟨a, ha, rfl⟩ B hB
              rcases hstabB with hBsub | hBdisj
              · rcases mem_mooreGrp.mp (hBsub hp) with ⟨-, t'', hep', -⟩
                rw [hep] at hep'
                cases hep'
              · exact Finset.eq_empty_iff_forall_not_mem.mp hBdisj q
                  (Finset.mem_inter.mpr ⟨hq, hqgrp⟩)

/-- The initial Moore partition satisfies the loop invariant. -/
theorem moorePresplit_inv (M : MooreE) :
    RefInv M.n (mooreGset M) (MooreEquiv M)
      (fun x y => M.col x = M.col y) (moorePresplit M) (moorePresplit M) := by
  have hblock : ∀ B ∈ moorePresplit M, ∃ c,
      c ∈ (Finset.range M.n).image M.col ∧
      B = (Finset.range M.n).filter (fun q => M.col q = c) := by
    intro B hB
    rcases List.mem_map.mp hB with ⟨c, hc, rfl⟩
    exact ⟨c, (Finset.mem_sort _).mp hc, rfl⟩
  have hsubP : ∀ B ∈ moorePresplit M, B ⊆ Finset.range M.n := by
    intro B hB
    rcases hblock B hB with ⟨c, -, rfl⟩
    exact Finset.filter_subset _ _
  have hcover : ∀ x < M.n, ∃ B ∈ moorePresplit M, x ∈ B := by
    intro x hx
    refine ⟨(Finset.range M.n).filter (fun q => M.col q = M.col x),
      List.mem_map.mpr ⟨M.col x, (Finset.mem_sort _).mpr
        (Finset.mem_image.mpr ⟨x, Finset.mem_range.mpr hx, rfl⟩), rfl⟩, ?_⟩
    exact Finset.mem_filter.mpr ⟨Finset.mem_range.mpr hx, rfl⟩
  have hrclo : ∀ B ∈ moorePresplit M, RClosed M.n (MooreEquiv M) B := by
    intro B hB
    rcases hblock B hB with ⟨c, -, rfl⟩
    intro x hx y hy hxy
    rcases Finset.mem_filter.mp hx with ⟨-, hcx⟩
    exact Finset.mem_filter.mpr ⟨Finset.mem_range.mpr hy,
      (mooreEquiv_col hxy).symm.trans hcx⟩
  refine
    { part :=
      { cover := hcover
        subsetP := hsubP
        disj := ?_
        blocksNonempty := ?_
        subsetQ := hsubP
        rcloP := hrclo
        rcloQ := hrclo
        baseP := ?_ }
      span := ⟨[], by simp, fun B hB => Derivable.mem _ (by simp [hB])⟩ }
  · rw [moorePresplit, List.pairwise_map]
    have hnd : (((Finset.range M.n).image M.col).sort (· ≤ ·)).Pairwise
        (· ≠ ·) :=
      (Finset.sort_nodup _ _)
    refine hnd.imp ?_
    intro c c' hne
    rw [Finset.eq_empty_iff_forall_not_mem]
    intro x hx
    rw [Finset.mem_inter, Finset.mem_filter, Finset.mem_filter] at hx
    exact hne (hx.1.2.symm.trans hx.2.2)
  · intro B hB
    rcases hblock B hB with ⟨c, hc, rfl⟩
    rcases Finset.mem_image.mp hc with ⟨x, hx, hcx⟩
    exact ⟨x, Finset.mem_filter.mpr ⟨hx, hcx⟩⟩
  · intro B hB x hx y hy
    rcases hblock B hB with ⟨c, -, rfl⟩
    rcases Finset.mem_filter.mp hx with ⟨-, hcx⟩
    rcases Finset.mem_filter.mp hy with ⟨-, hcy⟩
    exact hcx.trans hcy.symm

/-- Full characterization of any Moore refiner run. -/
theorem mooreRefine_spec (M : MooreE) (hM : M.Closed)
    (ch : List (Finset Nat) → List (Finset Nat) → Nat) :
    (∀ p, p < M.n → ∀ q, q < M.n →
      ((∃ B ∈ mooreRefine M ch, p ∈ B ∧ q ∈ B) ↔ MooreEquiv M p q)) ∧
    (∀ B ∈ mooreRefine M ch, ∃ p, p < M.n ∧
      ∀ x, x ∈ B ↔ (x < M.n ∧ MooreEquiv M p x)) ∧
    (∀ p, p < M.n → ∃ B ∈ mooreRefine M ch, p ∈ B) := by
  have hinv0 := moorePresplit_inv M
  have hloop := refineLoop_spec M.n (mooreGset M) (MooreEquiv M)
    (fun x y => M.col x = M.col y) (mooreProcessSet M) ch
    (fun S QP _ hSR => mooreProcessSet_step M hM
      (fun x y => M.col x = M.col y) hSR QP)
    (fun S QP _ hSR => mooreProcessSet_stab M hM
      (fun x y => M.col x = M.col y) hSR QP)
    (2 * M.n + 2) (moorePresplit M) (moorePresplit M) hinv0
  have hplen : (moorePresplit M).length ≤ M.n := by
    have := partition_length_le_card (moorePresplit M) (Finset.range M.n)
      hinv0.part.disj hinv0.part.blocksNonempty hinv0.part.subsetP
    simpa using this
  have hQempty : (refineLoop (mooreProcessSet M) ch (2 * M.n + 2)
      (moorePresplit M, moorePresplit M)).1 = [] := by
    by_cases hL : (moorePresplit M).length = 0
    · have hpre : moorePresplit M = [] := List.length_eq_zero.mp hL
      rw [hpre]
      rfl
    · apply hloop.2
      omega
  have hinvF := hloop.1
  rw [hQempty] at hinvF
  have hstabF : ∀ B ∈ (refineLoop (mooreProcessSet M) ch (2 * M.n + 2)
        (moorePresplit M, moorePresplit M)).2,
      StabAll (mooreGset M)
        (refineLoop (mooreProcessSet M) ch (2 * M.n + 2)
          (moorePresplit M, moorePresplit M)).2 B := by
    refine refinv_final_stab M.n _ _ _ hinvF ?_
    rintro g ⟨a, ha, rfl⟩
    exact ⟨fun S T _ => mooreGrp_union M a S T,
      fun S T _ => mooreGrp_sdiff M a S T⟩
  have htrace := moore_stable_trace M hM hinvF.part.subsetP
    hinvF.part.cover hstabF hinvF.part.baseP
  refine ⟨?_, ?_, ?_⟩
  · intro p hp q hq
    constructor
    · rintro ⟨B, hB, hpB, hqB⟩
      intro w hsyms
      exact htrace w hsyms B hB p hpB q hqB
    · intro hequiv
      rcases hinvF.part.cover p hp with ⟨B, hB, hpB⟩
      exact ⟨B, hB, hpB, hinvF.part.rcloP B hB p hpB q hq hequiv⟩
  · intro B hB
    rcases hinvF.part.blocksNonempty B hB with ⟨p, hpB⟩
    have hp : p < M.n := Finset.mem_range.mp (hinvF.part.subsetP B hB hpB)
    refine ⟨p, hp, ?_⟩
    intro x
    constructor
    · intro hxB
      have hx : x < M.n := Finset.mem_range.mp (hinvF.part.subsetP B hB hxB)
      exact ⟨hx, fun w hsyms => htrace w hsyms B hB p hpB x hxB⟩
    · rintro ⟨hx, he⟩
      exact hinvF.part.rcloP B hB p hpB x hx he
  · exact fun p hp => hinvF.part.cover p hp

/-- Any block of one Mealy refiner run is a block of any other run. -/
theorem mealyRefine_mem_transfer (M : MealyE) (hM : M.Closed) (hn : 0 < M.n)
    (ch ch' : List (Finset Nat) → List (Finset Nat) → Nat) (B : Finset Nat)
    (hB : B ∈ mealyRefine M ch) : B ∈ mealyRefine M ch' := by
  rcases (mealyRefine_spec M hM hn ch).2.1 B hB with ⟨p, hp, hchar⟩
  rcases (mealyRefine_spec M hM hn ch').2.2 p hp with ⟨B', hB', hpB'⟩
  rcases (mealyRefine_spec M hM hn ch').2.1 B' hB' with ⟨p', hp', hchar'⟩
  have hpp' : MealyEquiv M p' p := ((hchar' p).mp hpB').2
  have hBB' : B = B' := by
    ext x
    rw [hchar x, hchar' x]
    constructor
    · rintro ⟨hx, he⟩
      exact ⟨hx, mealyEquiv_trans hpp' he⟩
    · rintro ⟨hx, he⟩
      exact ⟨hx, mealyEquiv_trans (mealyEquiv_symm hpp') he⟩
  rw [hBB']
  exact hB'

/-- Any block of one Moore refiner run is a block of any other run. -/
theorem mooreRefine_mem_transfer (M : MooreE) (hM : M.Closed)
    (ch ch' : List (Finset Nat) → List (Finset Nat) → Nat) (B : Finset Nat)
    (hB : B ∈ mooreRefine M ch) : B ∈ mooreRefine M ch' := by
  rcases (mooreRefine_spec M hM ch).2.1 B hB with ⟨p, hp, hchar⟩
  rcases (mooreRefine_spec M hM ch').2.2 p hp with ⟨B', hB', hpB'⟩
  rcases (mooreRefine_spec M hM ch').2.1 B' hB' with ⟨p', hp', hchar'⟩
  have hpp' : MooreEquiv M p' p := ((hchar' p).mp hpB').2
  have hBB' : B = B' := by
    ext x
    rw [hchar x, hchar' x]
    constructor
    · rintro ⟨hx, he⟩
      exact ⟨hx, mooreEquiv_trans hpp' he⟩
    · rintro ⟨hx, he⟩
      exact ⟨hx, mooreEquiv_trans (mooreEquiv_symm hpp') he⟩
  rw [hBB']
  exact hB'

/-- On an automaton without states a Mealy symbol pass is the identity. -/
theorem mealyProcessSymbol_id_of_nzero (M : MealyE) (h : M.n = 0)
    (S : Finset Nat) (a : Nat)
    (QP : List (Finset Nat) × List (Finset Nat)) :
    mealyProcessSymbol M S a QP = QP := by
  rw [mealyProcessSymbol]
  have hci : mealyColorsInto M S a = ∅ := by
    rw [mealyColorsInto, h]
    simp
  rw [hci, Finset.sort_empty]
  rfl

/-- On an automaton without states, processing a popped Mealy set is the
identity. -/
theorem mealyProcessSet_id_of_nzero (M : MealyE) (h : M.n = 0)
    (S : Finset Nat) (QP : List (Finset Nat) × List (Finset Nat)) :
    mealyProcessSet M S QP = QP := by
  rw [mealyProcessSet]
  have key : ∀ (l : List Nat) (QP : List (Finset Nat) × List (Finset Nat)),
      l.foldl (fun QP a => mealyProcessSymbol M S a QP) QP = QP := by
    intro l
    induction l with
    | nil => intro QP; rfl
    | cons a l ih =>
        intro QP
        rw [List.foldl_cons, mealyProcessSymbol_id_of_nzero M h S a QP]
        exact ih QP
  exact key _ QP

/-- On an automaton without states the Mealy refiner returns the initial
trivial partition, whatever the worklist selection. -/
theorem mealyRefine_nzero (M : MealyE) (h : M.n = 0)
    (ch : List (Finset Nat) → List (Finset Nat) → Nat) :
    mealyRefine M ch = [∅] := by
  rw [mealyRefine, h]
  rw [refineLoop_succ (mealyProcessSet M) ch 1 [Finset.range 0]
    [Finset.range 0] (by simp)]
  simp only [List.length_singleton, Nat.mod_one, List.getD_cons_zero,
    List.eraseIdx_cons_zero]
  rw [mealyProcessSet_id_of_nzero M h]
  simp only [Finset.range_zero]
  rfl

/-- On an automaton without states the Moore presplit is empty. -/
theorem moorePresplit_nzero (M : MooreE) (h : M.n = 0) :
    moorePresplit M = [] := by
  rw [moorePresplit, h]
  simp

/-- On an automaton without states the Moore refiner returns the empty
partition, whatever the worklist selection. -/
theorem mooreRefine_nzero (M : MooreE) (h : M.n = 0)
    (ch : List (Finset Nat) → List (Finset Nat) → Nat) :
    mooreRefine M ch = [] := by
  rw [mooreRefine, moorePresplit_nzero M h]
  rfl

/-- C3: two states end in the same block of the partition returned by
`mealy_greatest_bisimulation` if and only if they produce the same
sequence of transition colors on every non-empty finite word over the
alphabet. -/
theorem mealy_greatest_bisimulation_correct (M : MealyE) (hM : M.Closed)
    (p q : Nat) (hp : p < M.n) (hq : q < M.n) :
    (∃ B ∈ mealy_greatest_bisimulation M, p ∈ B ∧ q ∈ B) ↔
      MealyEquiv M p q :=
  (mealyRefine_spec M hM (Nat.lt_of_le_of_lt (Nat.zero_le p) hp)
    popLast).1 p hp q hq

/-- C3 witness: the correctness hypotheses hold, and the characterization
applies, at the two bisimilar states of the concrete machine `mealyW`. -/
theorem mealy_greatest_bisimulation_correct_witness :
    mealyW.Closed ∧
      ((∃ B ∈ mealy_greatest_bisimulation mealyW, 0 ∈ B ∧ 1 ∈ B) ↔
        MealyEquiv mealyW 0 1) :=
  ⟨by decide,
    mealy_greatest_bisimulation_correct mealyW (by decide) 0 1 (by decide)
      (by decide)⟩

/-- C7: for every input automaton, the Mealy and the Moore refiner produce
the identical final partition — the same set of blocks — under any two
worklist-selection orders. -/
theorem refiner_worklist_order_invariant (M : MealyE) (hM : M.Closed)
    (Mo : MooreE) (hMo : Mo.Closed)
    (ch1 ch2 : List (Finset Nat) → List (Finset Nat) → Nat) :
    (mealyRefine M ch1).toFinset = (mealyRefine M ch2).toFinset ∧
    (mooreRefine Mo ch1).toFinset = (mooreRefine Mo ch2).toFinset := by
  constructor
  · by_cases hn : 0 < M.n
    · apply Finset.ext
      intro B
      rw [List.mem_toFinset, List.mem_toFinset]
      exact ⟨fun h => mealyRefine_mem_transfer M hM hn ch1 ch2 B h,
        fun h => mealyRefine_mem_transfer M hM hn ch2 ch1 B h⟩
    · have h0 : M.n = 0 := by omega
      rw [mealyRefine_nzero M h0 ch1, mealyRefine_nzero M h0 ch2]
  · apply Finset.ext
    intro B
    rw [List.mem_toFinset, List.mem_toFinset]
    exact ⟨fun h => mooreRefine_mem_transfer Mo hMo ch1 ch2 B h,
      fun h => mooreRefine_mem_transfer Mo hMo ch2 ch1 B h⟩

/-- C7 witness: order invariance applies to the concrete machines `mealyW`
and `mooreW` with the source's pop-last order against pop-first. -/
theorem refiner_worklist_order_invariant_witness :
    mealyW.Closed ∧ mooreW.Closed ∧
      ((mealyRefine mealyW popLast).toFinset =
          (mealyRefine mealyW (fun _ _ => 0)).toFinset ∧
        (mooreRefine mooreW popLast).toFinset =
          (mooreRefine mooreW (fun _ _ => 0)).toFinset) :=
  ⟨by decide, by decide,
    refiner_worklist_order_invariant mealyW (by decide) mooreW (by decide)
      popLast (fun _ _ => 0)⟩

/-- C6 counterexample: on the concrete machine `c6m` the block `{0, 1}`
has members whose outgoing colors on symbol `0` disagree (`[0, 1]`), yet
the quotient color selection silently returns the first member's color
instead of failing: the agreement assertion is commented out in the
source. -/
theorem quotient_color_conflict_goes_silent :
    quotientEdgeColors c6m (Finset.range 2) 0 = [0, 1] ∧
      quotient_color_select (quotientEdgeColors c6m (Finset.range 2) 0) =
        some 0 := by
  have h : quotientEdgeColors c6m (Finset.range 2) 0 = [0, 1] := by
    rw [quotientEdgeColors, Finset.sort_range]
    rfl
  exact ⟨h, by rw [h]; rfl⟩

/-- C6 (amended): whenever a block has at least one outgoing edge on a
symbol, the quotient construction succeeds and silently selects the first
representative's color (`c[0]`), whether or not the members agree. -/
theorem quotient_color_select_first (M : MealyE) (B : Finset Nat) (a c : Nat)
    (cs : List Nat) (h : quotientEdgeColors M B a = c :: cs) :
    quotient_color_select (quotientEdgeColors M B a) = some c := by
  rw [h]
  rfl

/-- C6 witness: the amended statement applies to the concrete machine
`c6m` and its conflicting block. -/
theorem quotient_color_select_first_witness :
    quotientEdgeColors c6m (Finset.range 2) 0 = 0 :: [1] ∧
      quotient_color_select (quotientEdgeColors c6m (Finset.range 2) 0) =
        some 0 :=
  ⟨by rw [quotientEdgeColors, Finset.sort_range]; rfl,
    quotient_color_select_first c6m (Finset.range 2) 0 0 [1]
      (by rw [quotientEdgeColors, Finset.sort_range]; rfl)⟩

/-- C10: for every composite state value, including values never reachable
from the initial state and values whose component indices name no state of
any automaton, `contains_state_index` returns `true`, and consequently
`state_color` and `edges_from` return `Some`; the transition-system
interface performs no membership validation on its state argument. -/
theorem contains_state_index_no_validation (dpa : PreciseDPA) (q : PState) :
    dpa.contains_state_index q = true ∧ dpa.state_color q = some () ∧
      (dpa.edges_from q).isSome := by
  refine ⟨rfl, rfl, ?_⟩
  simp [PreciseDPA.edges_from, PreciseDPA.contains_state_index]

/-- C9: the concrete scenario of the `precise_dpa` test — the 2-class
leading congruence over `{a, b, c}` with width-3 families
`[de0, de1, full]` and `[da0, full, full]` — yields a precise DPA with
exactly 8 reachable composite states (the exploration fixpoint is reached
within the given fuel and visits 8 states). -/
theorem precise_dpa_test_eight_states :
    (testDpa.bind (fun dpa => dpa.reachableStates 64)).map List.length = some 8 := by
  decide

/-- C5 (failing-input evaluation): on the one-class input with width-2
family `[c5a, c5b]` where `c5b.init = 1`, the initial composite state built
by `PreciseDPA::new` carries progress states `[0, 0]`, whereas the spec's
initial composite state (`progress_states[i] = dfas[class][i].initial()`)
carries `[0, 1]`: the code ranges over the classes and indexes
`dfas[i][e]` instead of ranging over the levels and indexing `dfas[e][i]`. -/
theorem new_initial_state_diverges_from_spec :
    (c5dpa.map PreciseDPA.states) =
      some [⟨0, [0, 0], [0, 0]⟩] ∧
    (c5dpa.bind specInitialPState) = some ⟨0, [0, 0], [0, 1]⟩ := by
  constructor <;> decide

/-- C2 (failing-input evaluation): on a well-formed one-class width-3 input
the color sequence of the engine started from the initial composite state
built by `PreciseDPA::new` is `[2]` on the word `a`, while the direct
evaluation of the least accepting index over the leading-class lineage
yields `[1]`: the engine is not a faithful encoding of the direct
definition, because `PreciseDPA::new` stores the initial state of the
wrong DFA (`dfas[i][e]` instead of `dfas[e][i]`) in the progress slots. -/
theorem engine_vs_direct_divergence :
    c2cong.Complete ∧ FamilyWF c2cong.symbols 3 [c2d0, c2d1, c2dtop] ∧
    (c2dpa.bind (fun dpa => dpa.states.head?.bind
      (fun q0 => engineColors dpa q0 [0]))) = some [2] ∧
    (c2dpa.bind (fun dpa => directColors dpa (directInit dpa) [0])) = some [1] := by
  refine ⟨by decide, by decide, by decide, by decide⟩

/-- C4 (failing-input evaluation): the input `c4dpa` is well-formed — the
leading congruence is complete and both width-2 families are complete with
an always-accepting top DFA — yet `take_precise_transition` fails (`none`,
i.e. the Rust code panics) at the reachable initial composite state on
symbol `0`, because `PreciseDPA::new` stored state `2` of `c4a0` in the
slot read by the one-state DFA `c4e1`. -/
theorem take_precise_transition_fails_on_wellformed_input :
    (∀ dpa ∈ c4dpa, dpa.WellFormed) ∧ c4dpa.isSome ∧
    (c4dpa.bind (fun dpa => dpa.states.head?.bind
      (fun q0 => dpa.take_precise_transition q0 0))) = none := by
  refine ⟨by decide, by decide, by decide⟩

/-- C8 (failing-input evaluation): a well-formed input with three classes
and complexity `1` makes `build_precise_dpa_for` fail (`none`, i.e. the
Rust code panics inside `PState::from_iters`, which is handed one initial
progress state per *class* — three of them — to fill an array of width
`N = 1`), contradicting the claim that construction proceeds for every
complexity in `1..=8`. -/
theorem build_fails_at_complexity_one :
    c8fwpm.complexity = 1 ∧ c8cong.Complete ∧
    (∀ fam ∈ c8fwpm.families, FamilyWF c8cong.symbols 1 fam) ∧
    build_precise_dpa_for c8fwpm = none := by
  refine ⟨by decide, by decide, by decide, rfl⟩

end Frieda
